import Mathlib

/-!
Shallow embedding of `blueprint2gcode.py` (furryalien/blueprint2gcode).

Coordinates are embedded as exact rationals (`ℚ × ℚ`).  The Python source
compares Euclidean norms against positive tolerances; every such comparison
site is embedded through the squared distance `dist2`, which is equivalent
for a positive threshold (`edist_lt_iff`, `edist_le_iff`).  Sums of Euclidean
lengths (`_line_length`, the emitter totals) are embedded over `ℝ` with
`Real.sqrt`.  External collaborators (OpenCV contour tracing, rasterised
masks) enter as abstract inputs: measured scalars for the classifier,
`ℤ → ℤ → Bool` pixel masks for the hatch filler.
-/

namespace B2G

/-- A 2D point with exact rational coordinates, embedding the Python float pairs. -/
abbrev Pt := ℚ × ℚ

/-- Squared Euclidean distance.  The source compares `np.linalg.norm(a - b)`
against a positive tolerance; `‖a-b‖ < t ↔ ‖a-b‖² < t²` for `0 < t`
(`edist_lt_iff`), so strict comparisons are embedded through `dist2`. -/
def dist2 (p q : Pt) : ℚ := (p.1 - q.1) ^ 2 + (p.2 - q.2) ^ 2

/-- Euclidean distance `np.linalg.norm(a - b)` between two embedded points. -/
noncomputable def edist (p q : Pt) : ℝ := Real.sqrt ((dist2 p q : ℚ) : ℝ)

lemma dist2_nonneg (p q : Pt) : 0 ≤ dist2 p q :=
  add_nonneg (sq_nonneg _) (sq_nonneg _)

lemma edist_nonneg (p q : Pt) : 0 ≤ edist p q := Real.sqrt_nonneg _

/-- Comparing the Euclidean distance with a positive threshold is the same as
comparing the squared distance with the squared threshold. -/
lemma edist_lt_iff (p q : Pt) (t : ℚ) (ht : 0 < t) :
    edist p q < (t : ℝ) ↔ dist2 p q < t ^ 2 := by
  unfold edist
  rw [Real.sqrt_lt' (by exact_mod_cast ht)]
  exact_mod_cast Iff.rfl

/-- Distance between two points on a common horizontal line. -/
lemma edist_horiz (a c b : ℚ) : edist (a, b) (c, b) = |(a : ℝ) - (c : ℝ)| := by
  unfold edist dist2
  push_cast
  rw [sub_self, show ((0 : ℝ) ^ 2 = 0) by norm_num, add_zero, Real.sqrt_sq_eq_abs]

/-- `_line_length`: total polyline length, the sum of consecutive-vertex
Euclidean distances. -/
noncomputable def line_length : List Pt → ℝ
  | [] => 0
  | [_] => 0
  | p :: q :: rest => edist p q + line_length (q :: rest)

lemma line_length_nonneg : ∀ l : List Pt, 0 ≤ line_length l
  | [] => le_refl 0
  | [_] => le_refl 0
  | _ :: q :: rest => by
      rw [line_length]
      exact add_nonneg (edist_nonneg _ _) (line_length_nonneg (q :: rest))

lemma line_length_pair (p q : Pt) : line_length [p, q] = edist p q := by
  rw [line_length, line_length, add_zero]

/-- Polyline kind tag: `regular` for skeletonised strokes, `solid` for hatch
and outline lines of filled regions (`'type'` in the source dicts). -/
inductive Kind
  | regular
  | solid
  deriving DecidableEq

/-- A tagged polyline, as produced by `detect_lines` and threaded through
`scale_to_a4` and `join_nearby_endpoints`. -/
structure TaggedLine where
  kind : Kind
  points : List Pt
  deriving DecidableEq

/-! The PolylineJoiner (`join_nearby_endpoints`).  Endpoint accesses
`line[0]` / `line[-1]` are embedded with `headD` / `getLastD`; in the pipeline
all polylines have at least two vertices, so the defaults are never observed. -/

/-- The four endpoint tests of the joiner, in source order:
end→start, end→end (reverse `l2`), start→start (reverse `l1`), start→end. -/
def tryJoin (tol : ℚ) (l1 l2 : List Pt) : Option (List Pt) :=
  if dist2 (l1.getLastD (0, 0)) (l2.headD (0, 0)) < tol ^ 2 then some (l1 ++ l2)
  else if dist2 (l1.getLastD (0, 0)) (l2.getLastD (0, 0)) < tol ^ 2 then some (l1 ++ l2.reverse)
  else if dist2 (l1.headD (0, 0)) (l2.headD (0, 0)) < tol ^ 2 then some (l1.reverse ++ l2)
  else if dist2 (l1.headD (0, 0)) (l2.getLastD (0, 0)) < tol ^ 2 then some (l2 ++ l1)
  else none

/-- Inner `for j` scan of one pass: the first other unconsumed line joinable
to `l1`, with the joined polyline. -/
def scanJ (tol : ℚ) (lines : List (List Pt)) (i : ℕ) (l1 : List Pt) (used : List ℕ) :
    List ℕ → Option (ℕ × List Pt)
  | [] => none
  | j :: js =>
    if j = i ∨ j ∈ used then scanJ tol lines i l1 used js
    else
      match tryJoin tol l1 (lines.getD j []) with
      | some nl => some (j, nl)
      | none => scanJ tol lines i l1 used js

/-- State of one joining pass: accumulated `new_lines`, the `used` set, and
whether any merge happened this pass. -/
structure PassSt where
  out : List (List Pt)
  used : List ℕ
  merged : Bool

/-- Outer `for i` loop of one pass of `join_nearby_endpoints`. -/
def joinPassGo (tol : ℚ) (lines : List (List Pt)) : List ℕ → PassSt → PassSt
  | [], st => st
  | i :: is, st =>
    if i ∈ st.used then joinPassGo tol lines is st
    else
      match scanJ tol lines i (lines.getD i []) st.used (List.range lines.length) with
      | some (j, nl) => joinPassGo tol lines is ⟨st.out ++ [nl], i :: j :: st.used, true⟩
      | none => joinPassGo tol lines is ⟨st.out ++ [lines.getD i []], i :: st.used, st.merged⟩

/-- One full pass over the regular lines: the new line list and whether a
merge happened. -/
def joinPass (tol : ℚ) (lines : List (List Pt)) : List (List Pt) × Bool :=
  let st := joinPassGo tol lines (List.range lines.length) ⟨[], [], false⟩
  (st.out, st.merged)

/-- The `while joined and iteration < 100` loop: repeat passes while merges
happen, at most `fuel` (source: 100) times. -/
def joinLoop (tol : ℚ) : ℕ → List (List Pt) → List (List Pt)
  | 0, ls => ls
  | fuel + 1, ls =>
    let r := joinPass tol ls
    if r.2 then joinLoop tol fuel r.1 else r.1

/-- The length filter `line_length line >= min_line_length` applied at the end
of `join_nearby_endpoints`. -/
noncomputable def keepLen (minLen : ℚ) (l : List Pt) : Bool :=
  @decide ((minLen : ℝ) ≤ line_length l) (Classical.propDecidable _)

/-- `join_nearby_endpoints`: only regular (stroke) lines are merged (at most
100 passes); solid (hatch/outline) lines pass through untouched; finally any
polyline whose total length is below `minLen` is dropped. -/
noncomputable def join_nearby_endpoints (tol minLen : ℚ) (lines : List TaggedLine) :
    List (List Pt) :=
  (joinLoop tol 100 ((lines.filter fun t => t.kind = Kind.regular).map TaggedLine.points)
    ++ (lines.filter fun t => t.kind = Kind.solid).map TaggedLine.points).filter (keepLen minLen)

lemma getD_mem {α : Type} (l : List α) (i : ℕ) (d : α) (h : i < l.length) :
    l.getD i d ∈ l := by
  rw [List.getD_eq_getElem l d h]
  exact List.getElem_mem h

/-- Polylines derivable from a pool by the joiner's operations: pool members,
reversal, and concatenation.  An output polyline built entirely from `stroke`
inputs is `BuiltFrom` the regular pool. -/
inductive BuiltFrom (pool : List (List Pt)) : List Pt → Prop
  | base {l : List Pt} : l ∈ pool → BuiltFrom pool l
  | rev {l : List Pt} : BuiltFrom pool l → BuiltFrom pool l.reverse
  | app {a b : List Pt} : BuiltFrom pool a → BuiltFrom pool b → BuiltFrom pool (a ++ b)

lemma tryJoin_built {pool : List (List Pt)} {tol : ℚ} {l1 l2 nl : List Pt}
    (h1 : BuiltFrom pool l1) (h2 : BuiltFrom pool l2)
    (h : tryJoin tol l1 l2 = some nl) : BuiltFrom pool nl := by
  unfold tryJoin at h
  split_ifs at h <;> injection h with h <;> subst h
  · exact BuiltFrom.app h1 h2
  · exact BuiltFrom.app h1 (BuiltFrom.rev h2)
  · exact BuiltFrom.app (BuiltFrom.rev h1) h2
  · exact BuiltFrom.app h2 h1

lemma scanJ_spec (tol : ℚ) (lines : List (List Pt)) (i : ℕ) (l1 : List Pt) (used : List ℕ) :
    ∀ js j nl, scanJ tol lines i l1 used js = some (j, nl) →
      j ∈ js ∧ tryJoin tol l1 (lines.getD j []) = some nl
  | [], j, nl, h => by simp [scanJ] at h
  | a :: as, j, nl, h => by
      rw [scanJ] at h
      by_cases hc : a = i ∨ a ∈ used
      · rw [if_pos hc] at h
        have hrec := scanJ_spec tol lines i l1 used as j nl h
        exact ⟨List.mem_cons_of_mem _ hrec.1, hrec.2⟩
      · rw [if_neg hc] at h
        cases htj : tryJoin tol l1 (lines.getD a []) with
        | some nl2 =>
            rw [htj] at h
            injection h with h
            injection h with ha hnl
            subst ha
            subst hnl
            exact ⟨List.mem_cons_self _ _, htj⟩
        | none =>
            rw [htj] at h
            have hrec := scanJ_spec tol lines i l1 used as j nl h
            exact ⟨List.mem_cons_of_mem _ hrec.1, hrec.2⟩

lemma joinPassGo_built (tol : ℚ) (lines pool : List (List Pt))
    (hlines : ∀ l ∈ lines, BuiltFrom pool l) :
    ∀ is st, (∀ i ∈ is, i < lines.length) → (∀ l ∈ st.out, BuiltFrom pool l) →
      ∀ l ∈ (joinPassGo tol lines is st).out, BuiltFrom pool l
  | [], st, _, hst => by
      rw [joinPassGo]
      exact hst
  | i :: is, st, his, hst => by
      have hi_lt : i < lines.length := his i (List.mem_cons_self _ _)
      have his2 : ∀ k ∈ is, k < lines.length := fun k hk => his k (List.mem_cons_of_mem _ hk)
      rw [joinPassGo]
      by_cases hi : i ∈ st.used
      · rw [if_pos hi]
        exact joinPassGo_built tol lines pool hlines is st his2 hst
      · rw [if_neg hi]
        cases hs : scanJ tol lines i (lines.getD i []) st.used (List.range lines.length) with
        | some jn =>
            apply joinPassGo_built tol lines pool hlines is _ his2
            intro l hl
            rcases List.mem_append.mp hl with hl | hl
            · exact hst l hl
            · have hspec := scanJ_spec tol lines i (lines.getD i []) st.used
                (List.range lines.length) jn.1 jn.2 (by rw [hs])
              have hj_lt : jn.1 < lines.length := List.mem_range.mp hspec.1
              have hb1 : BuiltFrom pool (lines.getD i []) :=
                hlines _ (getD_mem lines i [] hi_lt)
              have hb2 : BuiltFrom pool (lines.getD jn.1 []) :=
                hlines _ (getD_mem lines jn.1 [] hj_lt)
              rw [List.mem_singleton.mp hl]
              exact tryJoin_built hb1 hb2 hspec.2
        | none =>
            apply joinPassGo_built tol lines pool hlines is _ his2
            intro l hl
            rcases List.mem_append.mp hl with hl | hl
            · exact hst l hl
            · rw [List.mem_singleton.mp hl]
              exact hlines _ (getD_mem lines i [] hi_lt)

lemma joinPass_built (tol : ℚ) (lines pool : List (List Pt))
    (hlines : ∀ l ∈ lines, BuiltFrom pool l) :
    ∀ l ∈ (joinPass tol lines).1, BuiltFrom pool l := by
  unfold joinPass
  exact joinPassGo_built tol lines pool hlines (List.range lines.length) ⟨[], [], false⟩
    (fun i hi => List.mem_range.mp hi) (by simp)

lemma joinLoop_built (tol : ℚ) (pool : List (List Pt)) :
    ∀ fuel (ls : List (List Pt)), (∀ l ∈ ls, BuiltFrom pool l) →
      ∀ l ∈ joinLoop tol fuel ls, BuiltFrom pool l
  | 0, ls, hls => by
      rw [joinLoop]
      exact hls
  | fuel + 1, ls, hls => by
      rw [joinLoop]
      have hpass := joinPass_built tol ls pool hls
      by_cases hm : (joinPass tol ls).2
      · simp only [hm, if_true]
        exact joinLoop_built tol pool fuel (joinPass tol ls).1 hpass
      · simp only [hm, if_false]
        exact hpass

lemma keepLen_iff (minLen : ℚ) (l : List Pt) :
    keepLen minLen l = true ↔ (minLen : ℝ) ≤ line_length l := by
  unfold keepLen
  exact decide_eq_true_iff

lemma joinPass_single (tol : ℚ) (l : List Pt) : joinPass tol [l] = ([l], false) := by
  simp [joinPass, joinPassGo, scanJ, List.range_succ]

lemma joinLoop_succ_true (tol : ℚ) (f : ℕ) (ls r : List (List Pt))
    (h : joinPass tol ls = (r, true)) : joinLoop tol (f + 1) ls = joinLoop tol f r := by
  simp [joinLoop, h]

lemma joinLoop_succ_false (tol : ℚ) (f : ℕ) (ls r : List (List Pt))
    (h : joinPass tol ls = (r, false)) : joinLoop tol (f + 1) ls = r := by
  simp [joinLoop, h]

lemma joinLoop_single (tol : ℚ) (f : ℕ) (l : List Pt) : joinLoop tol (f + 1) [l] = [l] :=
  joinLoop_succ_false tol f [l] [l] (joinPass_single tol l)

/-- A joining pass on exactly two lines reduces to the four-way endpoint test. -/
lemma joinPass_pair (tol : ℚ) (p1 p2 : List Pt) :
    joinPass tol [p1, p2] =
      match tryJoin tol p1 p2 with
      | some nl => ([nl], true)
      | none => ([p1, p2], false) := by
  cases h : tryJoin tol p1 p2 with
  | some nl => simp [joinPass, joinPassGo, scanJ, h, List.range_succ]
  | none => simp [joinPass, joinPassGo, scanJ, h, List.range_succ]

/-- C5: the PolylineJoiner never mixes kinds.  Every polyline it outputs is
either built purely from regular (`stroke`) input polylines by concatenation
and reversal, or is literally one of the solid (`hatch-or-outline`) input
polylines; and every solid input polyline that survives the length filter
passes through with its points unchanged. -/
theorem joiner_tag_isolation (tol minLen : ℚ) (lines : List TaggedLine) :
    (∀ l ∈ join_nearby_endpoints tol minLen lines,
        BuiltFrom ((lines.filter fun t => t.kind = Kind.regular).map TaggedLine.points) l ∨
        l ∈ (lines.filter fun t => t.kind = Kind.solid).map TaggedLine.points) ∧
    (∀ s ∈ (lines.filter fun t => t.kind = Kind.solid).map TaggedLine.points,
        (minLen : ℝ) ≤ line_length s → s ∈ join_nearby_endpoints tol minLen lines) := by
  constructor
  · intro l hl
    rw [join_nearby_endpoints, List.mem_filter] at hl
    rcases List.mem_append.mp hl.1 with hmem | hmem
    · left
      exact joinLoop_built tol _ 100 _ (fun x hx => BuiltFrom.base hx) l hmem
    · right
      exact hmem
  · intro s hs hlen
    rw [join_nearby_endpoints, List.mem_filter]
    exact ⟨List.mem_append_right _ hs, (keepLen_iff minLen s).mpr hlen⟩

/-- Witness for C5 at a concrete input: a single solid polyline of length 3
survives a length filter at 1 and passes through unchanged. -/
theorem joiner_tag_isolation_witness :
    [((0 : ℚ), (0 : ℚ)), ((3 : ℚ), (0 : ℚ))] ∈
      join_nearby_endpoints 1 1 [⟨Kind.solid, [((0 : ℚ), (0 : ℚ)), ((3 : ℚ), (0 : ℚ))]⟩] := by
  apply (joiner_tag_isolation 1 1 [⟨Kind.solid, [((0 : ℚ), (0 : ℚ)), ((3 : ℚ), (0 : ℚ))]⟩]).2
  · simp [List.filter]
  · rw [line_length_pair, edist_horiz]
    norm_num

/-- C6: on an input of exactly two stroke polylines the joiner loop
concatenates them if and only if one of the four endpoint distances is
strictly below the tolerance, testing in the fixed source order
end→start, end→end (reversing the second), start→start (reversing the
first), start→end. -/
theorem joiner_pair_boundary (tol : ℚ) (ht : 0 < tol) (p1 p2 : List Pt) :
    (edist (p1.getLastD (0, 0)) (p2.headD (0, 0)) < (tol : ℝ) →
        joinLoop tol 100 [p1, p2] = [p1 ++ p2]) ∧
    (¬ edist (p1.getLastD (0, 0)) (p2.headD (0, 0)) < (tol : ℝ) →
     edist (p1.getLastD (0, 0)) (p2.getLastD (0, 0)) < (tol : ℝ) →
        joinLoop tol 100 [p1, p2] = [p1 ++ p2.reverse]) ∧
    (¬ edist (p1.getLastD (0, 0)) (p2.headD (0, 0)) < (tol : ℝ) →
     ¬ edist (p1.getLastD (0, 0)) (p2.getLastD (0, 0)) < (tol : ℝ) →
     edist (p1.headD (0, 0)) (p2.headD (0, 0)) < (tol : ℝ) →
        joinLoop tol 100 [p1, p2] = [p1.reverse ++ p2]) ∧
    (¬ edist (p1.getLastD (0, 0)) (p2.headD (0, 0)) < (tol : ℝ) →
     ¬ edist (p1.getLastD (0, 0)) (p2.getLastD (0, 0)) < (tol : ℝ) →
     ¬ edist (p1.headD (0, 0)) (p2.headD (0, 0)) < (tol : ℝ) →
     edist (p1.headD (0, 0)) (p2.getLastD (0, 0)) < (tol : ℝ) →
        joinLoop tol 100 [p1, p2] = [p2 ++ p1]) ∧
    (¬ edist (p1.getLastD (0, 0)) (p2.headD (0, 0)) < (tol : ℝ) →
     ¬ edist (p1.getLastD (0, 0)) (p2.getLastD (0, 0)) < (tol : ℝ) →
     ¬ edist (p1.headD (0, 0)) (p2.headD (0, 0)) < (tol : ℝ) →
     ¬ edist (p1.headD (0, 0)) (p2.getLastD (0, 0)) < (tol : ℝ) →
        joinLoop tol 100 [p1, p2] = [p1, p2]) := by
  have hiff : ∀ a b : Pt, (edist a b < (tol : ℝ) ↔ dist2 a b < tol ^ 2) :=
    fun a b => edist_lt_iff a b tol ht
  have hrun : ∀ nl : List Pt, tryJoin tol p1 p2 = some nl →
      joinLoop tol 100 [p1, p2] = [nl] := by
    intro nl htj
    have hp : joinPass tol [p1, p2] = ([nl], true) := by
      rw [joinPass_pair, htj]
    rw [joinLoop_succ_true tol 99 [p1, p2] [nl] hp]
    exact joinLoop_single tol 98 nl
  refine ⟨?_, ?_, ?_, ?_, ?_⟩
  · intro h1
    apply hrun
    rw [tryJoin, if_pos ((hiff _ _).mp h1)]
  · intro h1 h2
    apply hrun
    rw [tryJoin, if_neg (fun hq => h1 ((hiff _ _).mpr hq)), if_pos ((hiff _ _).mp h2)]
  · intro h1 h2 h3
    apply hrun
    rw [tryJoin, if_neg (fun hq => h1 ((hiff _ _).mpr hq)),
      if_neg (fun hq => h2 ((hiff _ _).mpr hq)), if_pos ((hiff _ _).mp h3)]
  · intro h1 h2 h3 h4
    apply hrun
    rw [tryJoin, if_neg (fun hq => h1 ((hiff _ _).mpr hq)),
      if_neg (fun hq => h2 ((hiff _ _).mpr hq)), if_neg (fun hq => h3 ((hiff _ _).mpr hq)),
      if_pos ((hiff _ _).mp h4)]
  · intro h1 h2 h3 h4
    have htj : tryJoin tol p1 p2 = none := by
      rw [tryJoin, if_neg (fun hq => h1 ((hiff _ _).mpr hq)),
        if_neg (fun hq => h2 ((hiff _ _).mpr hq)), if_neg (fun hq => h3 ((hiff _ _).mpr hq)),
        if_neg (fun hq => h4 ((hiff _ _).mpr hq))]
    have hp : joinPass tol [p1, p2] = ([p1, p2], false) := by
      rw [joinPass_pair, htj]
    exact joinLoop_succ_false tol 99 [p1, p2] [p1, p2] hp

/-- Witness for C6: with tolerance 1, nearest endpoints at distance 9/10 join
(end→start) and nearest endpoints at distance 11/10 do not. -/
theorem joiner_pair_boundary_witness :
    joinLoop 1 100 [[((0 : ℚ), (0 : ℚ)), ((5 : ℚ), (0 : ℚ))],
        [((59 / 10 : ℚ), (0 : ℚ)), ((9 : ℚ), (0 : ℚ))]] =
      [[((0 : ℚ), (0 : ℚ)), ((5 : ℚ), (0 : ℚ)), ((59 / 10 : ℚ), (0 : ℚ)), ((9 : ℚ), (0 : ℚ))]] ∧
    joinLoop 1 100 [[((0 : ℚ), (0 : ℚ)), ((5 : ℚ), (0 : ℚ))],
        [((61 / 10 : ℚ), (0 : ℚ)), ((9 : ℚ), (0 : ℚ))]] =
      [[((0 : ℚ), (0 : ℚ)), ((5 : ℚ), (0 : ℚ))], [((61 / 10 : ℚ), (0 : ℚ)), ((9 : ℚ), (0 : ℚ))]] := by
  constructor
  · apply (joiner_pair_boundary 1 one_pos [((0 : ℚ), (0 : ℚ)), ((5 : ℚ), (0 : ℚ))]
      [((59 / 10 : ℚ), (0 : ℚ)), ((9 : ℚ), (0 : ℚ))]).1
    show edist ((5 : ℚ), (0 : ℚ)) ((59 / 10 : ℚ), (0 : ℚ)) < (((1 : ℚ) : ℝ))
    rw [edist_horiz, abs_lt]
    constructor <;> norm_num
  · obtain ⟨-, -, -, -, h⟩ := joiner_pair_boundary 1 one_pos
      [((0 : ℚ), (0 : ℚ)), ((5 : ℚ), (0 : ℚ))] [((61 / 10 : ℚ), (0 : ℚ)), ((9 : ℚ), (0 : ℚ))]
    apply h
    · show ¬ edist ((5 : ℚ), (0 : ℚ)) ((61 / 10 : ℚ), (0 : ℚ)) < (((1 : ℚ) : ℝ))
      rw [edist_horiz, not_lt, le_abs]
      right
      norm_num
    · show ¬ edist ((5 : ℚ), (0 : ℚ)) ((9 : ℚ), (0 : ℚ)) < (((1 : ℚ) : ℝ))
      rw [edist_horiz, not_lt, le_abs]
      right
      norm_num
    · show ¬ edist ((0 : ℚ), (0 : ℚ)) ((61 / 10 : ℚ), (0 : ℚ)) < (((1 : ℚ) : ℝ))
      rw [edist_horiz, not_lt, le_abs]
      right
      norm_num
    · show ¬ edist ((0 : ℚ), (0 : ℚ)) ((9 : ℚ), (0 : ℚ)) < (((1 : ℚ) : ℝ))
      rw [edist_horiz, not_lt, le_abs]
      right
      norm_num

/-- C7: after joining, a polyline is kept exactly when its total length is at
least the minimum `minLen` — equivalently, dropped exactly when strictly
below it — uniformly for joined stroke polylines and untouched solid ones. -/
theorem joiner_length_filter :
    ∀ (tol minLen : ℚ) (lines : List TaggedLine) (l : List Pt),
      l ∈ join_nearby_endpoints tol minLen lines ↔
        (l ∈ joinLoop tol 100
              ((lines.filter fun t => t.kind = Kind.regular).map TaggedLine.points)
            ++ (lines.filter fun t => t.kind = Kind.solid).map TaggedLine.points ∧
         (minLen : ℝ) ≤ line_length l) := by
  intro tol minLen lines l
  rw [join_nearby_endpoints, List.mem_filter, keepLen_iff]

/-! The Sequencer (`optimize_path`): greedy nearest-neighbour ordering.
`min_dist` starts at infinity, embedded as `Option ℚ` with `none` for `inf`;
the strict comparisons of squared distances select the same line as the
source's comparisons of Euclidean distances, since squaring is strictly
monotone on nonnegative reals. -/

/-- Comparison with the running minimum (`none` plays `float('inf')`). -/
def ltO (d : ℚ) : Option ℚ → Bool
  | none => true
  | some v => decide (d < v)

/-- One candidate line of the nearest-line search: first the distance to the
line's start (drawing forward), then to its end (drawing reversed), each
replacing the running minimum only when strictly smaller. -/
def selStep (cur : Pt) (lines : List (List Pt)) (idx : ℕ) (st : Option ℚ × ℕ × Bool) :
    Option ℚ × ℕ × Bool :=
  let l := lines.getD idx []
  let ds := dist2 (l.headD (0, 0)) cur
  let st1 := if ltO ds st.1 then (some ds, idx, false) else st
  if ltO (dist2 (l.getLastD (0, 0)) cur) st1.1 then
    (some (dist2 (l.getLastD (0, 0)) cur), idx, true)
  else st1

/-- The `for idx in remaining` scan of `optimize_path`. -/
def selGo (cur : Pt) (lines : List (List Pt)) :
    List ℕ → Option ℚ × ℕ × Bool → Option ℚ × ℕ × Bool
  | [], st => st
  | idx :: rest, st => selGo cur lines rest (selStep cur lines idx st)

/-- Nearest remaining line (its index) and whether to draw it reversed. -/
def selectNearest (cur : Pt) (lines : List (List Pt)) (remaining : List ℕ) : ℕ × Bool :=
  (selGo cur lines remaining (none, 0, false)).2

lemma selStep_idx (cur : Pt) (lines : List (List Pt)) (idx : ℕ) (st : Option ℚ × ℕ × Bool) :
    (selStep cur lines idx st).2.1 = idx ∨ selStep cur lines idx st = st := by
  dsimp only [selStep]
  split_ifs <;> simp

lemma selStep_none (cur : Pt) (lines : List (List Pt)) (idx : ℕ) (st : Option ℚ × ℕ × Bool)
    (h : st.1 = none) : (selStep cur lines idx st).2.1 = idx := by
  dsimp only [selStep]
  rw [h]
  rw [show ∀ d : ℚ, ltO d none = true from fun _ => rfl]
  simp only [if_true]
  split_ifs <;> simp

lemma selGo_mem (cur : Pt) (lines : List (List Pt)) :
    ∀ (rem : List ℕ) (st : Option ℚ × ℕ × Bool),
      (selGo cur lines rem st).2.1 ∈ rem ∨ (selGo cur lines rem st).2.1 = st.2.1
  | [], st => Or.inr rfl
  | idx :: rest, st => by
      rw [selGo]
      rcases selGo_mem cur lines rest (selStep cur lines idx st) with h | h
      · exact Or.inl (List.mem_cons_of_mem _ h)
      · rw [h]
        rcases selStep_idx cur lines idx st with h2 | h2
        · rw [h2]
          exact Or.inl (List.mem_cons_self _ _)
        · rw [h2]
          exact Or.inr rfl

lemma selectNearest_mem (cur : Pt) (lines : List (List Pt)) (rem : List ℕ) (h : rem ≠ []) :
    (selectNearest cur lines rem).1 ∈ rem := by
  cases rem with
  | nil => exact absurd rfl h
  | cons idx rest =>
      unfold selectNearest
      rw [selGo]
      rcases selGo_mem cur lines rest (selStep cur lines idx (none, 0, false)) with h2 | h2
      · exact List.mem_cons_of_mem _ h2
      · rw [h2, selStep_none cur lines idx (none, 0, false) rfl]
        exact List.mem_cons_self _ _

/-- The chosen line, reversed when its end is the nearer endpoint. -/
def drawnLine (lines : List (List Pt)) (sel : ℕ × Bool) : List Pt :=
  if sel.2 then (lines.getD sel.1 []).reverse else lines.getD sel.1 []

/-- The `while remaining` loop of `optimize_path`; `fuel` bounds the number of
iterations and is instantiated with the line count, which the per-step removal
makes exact. -/
def optGo (lines : List (List Pt)) : ℕ → Pt → List ℕ → List (List Pt)
  | 0, _, _ => []
  | fuel + 1, cur, remaining =>
    if remaining.isEmpty then []
    else
      drawnLine lines (selectNearest cur lines remaining) ::
        optGo lines fuel
          ((drawnLine lines (selectNearest cur lines remaining)).getLastD (0, 0))
          (remaining.erase (selectNearest cur lines remaining).1)

/-- `optimize_path`: greedy nearest-neighbour ordering starting from the
margin corner; lists of at most one line are returned unchanged. -/
def optimize_path (margin : ℚ) (lines : List (List Pt)) : List (List Pt) :=
  if lines.length ≤ 1 then lines
  else optGo lines lines.length (margin, margin) (List.range lines.length)

/-- A polyline up to reversal: the two-element multiset of its two readings. -/
def sym (l : List Pt) : Multiset (List Pt) := {l, l.reverse}

lemma sym_reverse (l : List Pt) : sym l.reverse = sym l := by
  unfold sym
  rw [List.reverse_reverse]
  exact Multiset.pair_comm _ _

lemma sym_drawnLine (lines : List (List Pt)) (sel : ℕ × Bool) :
    sym (drawnLine lines sel) = sym (lines.getD sel.1 []) := by
  unfold drawnLine
  split_ifs
  · exact sym_reverse _
  · rfl

lemma map_getD_range {α : Type} (l : List α) (d : α) :
    (List.range l.length).map (fun i => l.getD i d) = l := by
  apply List.ext_getElem (by simp)
  intro n h1 h2
  rw [List.getElem_map, List.getElem_range, List.getD_eq_getElem l d h2]

lemma optGo_perm (lines : List (List Pt)) :
    ∀ (fuel : ℕ) (rem : List ℕ) (cur : Pt), rem.length ≤ fuel →
      ((optGo lines fuel cur rem).map sym).Perm
        (rem.map fun i => sym (lines.getD i []))
  | 0, rem, _, h => by
      have hnil : rem = [] := List.eq_nil_of_length_eq_zero (Nat.le_zero.mp h)
      subst hnil
      rw [optGo]
      exact List.Perm.refl _
  | fuel + 1, rem, cur, h => by
      rw [optGo]
      by_cases hr : rem.isEmpty
      · rw [if_pos hr]
        have hnil : rem = [] := List.isEmpty_iff.mp hr
        subst hnil
        exact List.Perm.refl _
      · rw [if_neg hr]
        have hne : rem ≠ [] := fun c => hr (by rw [c]; rfl)
        have hmem : (selectNearest cur lines rem).1 ∈ rem := selectNearest_mem cur lines rem hne
        have hlen : (rem.erase (selectNearest cur lines rem).1).length ≤ fuel := by
          rw [List.length_erase_of_mem hmem]
          have : 1 ≤ rem.length := List.length_pos.mpr hne
          omega
        have ih := optGo_perm lines fuel (rem.erase (selectNearest cur lines rem).1)
          ((drawnLine lines (selectNearest cur lines rem)).getLastD (0, 0)) hlen
        rw [List.map_cons, sym_drawnLine]
        have hperm := (List.perm_cons_erase hmem).map fun i => sym (lines.getD i [])
        exact ((ih.cons _).trans hperm.symm).symm.symm

/-- C4: the Sequencer's output is a permutation of the input polylines up to
reversing individual polylines — same count, no duplicates, no omissions —
and every output polyline equals some input polyline or its reversal. -/
theorem sequencer_permutation (margin : ℚ) (lines : List (List Pt)) :
    (optimize_path margin lines).length = lines.length ∧
    ((optimize_path margin lines).map sym).Perm (lines.map sym) ∧
    ∀ l ∈ optimize_path margin lines, ∃ l0 ∈ lines, l = l0 ∨ l = l0.reverse := by
  have hperm : ((optimize_path margin lines).map sym).Perm (lines.map sym) := by
    unfold optimize_path
    split_ifs with h
    · exact List.Perm.refl _
    · have hp := optGo_perm lines lines.length (List.range lines.length) (margin, margin)
        (by rw [List.length_range])
      have heq : ((List.range lines.length).map fun i => sym (lines.getD i [])) =
          lines.map sym := by
        have := map_getD_range lines []
        calc ((List.range lines.length).map fun i => sym (lines.getD i []))
            = ((List.range lines.length).map fun i => lines.getD i []).map sym := by
              rw [List.map_map]; rfl
          _ = lines.map sym := by rw [this]
      rw [heq] at hp
      exact hp
  refine ⟨by simpa using hperm.length_eq, hperm, ?_⟩
  intro l hl
  have h2 : sym l ∈ lines.map sym :=
    hperm.mem_iff.mp (List.mem_map_of_mem sym hl)
  obtain ⟨l0, hl0, heq⟩ := List.mem_map.mp h2
  refine ⟨l0, hl0, ?_⟩
  have hmem : l ∈ sym l0 := by
    rw [heq]
    unfold sym
    simp
  unfold sym at hmem
  simpa using hmem

/-- Witness for C4 at a concrete two-line input. -/
theorem sequencer_permutation_witness :
    ∃ l0 ∈ [[((0 : ℚ), (0 : ℚ)), ((1 : ℚ), (0 : ℚ))], [((5 : ℚ), (0 : ℚ)), ((6 : ℚ), (0 : ℚ))]],
      [((0 : ℚ), (0 : ℚ)), ((1 : ℚ), (0 : ℚ))] = l0 ∨
      [((0 : ℚ), (0 : ℚ)), ((1 : ℚ), (0 : ℚ))] = l0.reverse := by
  apply (sequencer_permutation 0
    [[((0 : ℚ), (0 : ℚ)), ((1 : ℚ), (0 : ℚ))], [((5 : ℚ), (0 : ℚ)), ((6 : ℚ), (0 : ℚ))]]).2.2
  norm_num [optimize_path, optGo, selectNearest, selGo, selStep, drawnLine, ltO, dist2]

/-! The CanvasMapper.  `convert` (lines 1109-1138) and `scale_to_a4`
(lines 763-858) both derive a pixel→mm transform; their orientation rules for
`auto` differ in the source and are embedded separately. -/

/-- Paper orientation request. -/
inductive Orient
  | auto
  | portrait
  | landscape
  deriving DecidableEq

/-- Usable sheet extent after subtracting both margins. -/
def usable (paper margin : ℚ) : ℚ := paper - 2 * margin

/-- The auto rule used in `convert`: portrait exactly when the image is
strictly taller than wide (`img_width < img_height`). -/
def convertUsePortrait (o : Orient) (w h : ℚ) : Bool :=
  match o with
  | Orient.auto => decide (w < h)
  | Orient.portrait => true
  | Orient.landscape => false

/-- The auto rule used in `scale_to_a4`: portrait exactly when the usable
portrait aspect is strictly closer to the image aspect than the landscape
aspect. -/
def scaleUsePortrait (o : Orient) (uW uH w h : ℚ) : Bool :=
  match o with
  | Orient.auto => decide (|w / h - uW / uH| < |w / h - uH / uW|)
  | Orient.portrait => true
  | Orient.landscape => false

/-- Target (width, height) of the drawing area for the chosen orientation. -/
def targetDims (usePortrait : Bool) (uW uH : ℚ) : ℚ × ℚ :=
  if usePortrait then (uW, uH) else (uH, uW)

/-- The pixel→mm scale computed in `convert` and used to turn the hatch
spacing into pixels. -/
def pixels_to_mm_scale (paperW paperH margin : ℚ) (o : Orient) (w h : ℚ) : ℚ :=
  min ((targetDims (convertUsePortrait o w h) (usable paperW margin) (usable paperH margin)).1 / w)
    ((targetDims (convertUsePortrait o w h) (usable paperW margin) (usable paperH margin)).2 / h)

/-- Whether `scale_to_a4` rotates the image 90°: never for square images,
otherwise exactly when the chosen orientation disagrees with the image's own
orientation. -/
def needRotation (usePortrait : Bool) (w h : ℚ) : Bool :=
  if w = h then false
  else (usePortrait && !(decide (w < h))) || (!usePortrait && decide (w < h))

/-- The 90° clockwise rotation `(x, y) ↦ (h - y, x)` of `scale_to_a4`. -/
def rotCW (h : ℚ) (p : Pt) : Pt := (h - p.2, p.1)

/-- Image dimensions after the optional rotation (the source swaps them). -/
def rotDims (rot : Bool) (w h : ℚ) : ℚ × ℚ := if rot then (h, w) else (w, h)

/-- `scale = min(target_width / img_width, target_height / img_height)`. -/
def scaleFactor (tw th w2 h2 : ℚ) : ℚ := min (tw / w2) (th / h2)

/-- The per-point map of `scale_to_a4` after rotation: scale, centre inside
the margin-inset target area, and flip the Y axis. -/
def a4Map (margin tw th w2 h2 : ℚ) (p : Pt) : Pt :=
  (p.1 * scaleFactor tw th w2 h2 + (margin + (tw - w2 * scaleFactor tw th w2 h2) / 2),
   (h2 - p.2) * scaleFactor tw th w2 h2 + (margin + (th - h2 * scaleFactor tw th w2 h2) / 2))

/-- The full point transform of `scale_to_a4`: orientation choice, optional
rotation, then scaling/centring/Y-flip. -/
def scaleMapPoint (paperW paperH margin : ℚ) (o : Orient) (w h : ℚ) (p : Pt) : Pt :=
  a4Map margin
    (targetDims (scaleUsePortrait o (usable paperW margin) (usable paperH margin) w h)
      (usable paperW margin) (usable paperH margin)).1
    (targetDims (scaleUsePortrait o (usable paperW margin) (usable paperH margin) w h)
      (usable paperW margin) (usable paperH margin)).2
    (rotDims (needRotation (scaleUsePortrait o (usable paperW margin) (usable paperH margin) w h)
      w h) w h).1
    (rotDims (needRotation (scaleUsePortrait o (usable paperW margin) (usable paperH margin) w h)
      w h) w h).2
    (if needRotation (scaleUsePortrait o (usable paperW margin) (usable paperH margin) w h) w h
      then rotCW h p else p)

/-- `scale_to_a4` on tagged lines (kinds are preserved, points transformed). -/
def scale_to_a4 (paperW paperH margin : ℚ) (o : Orient) (w h : ℚ)
    (lines : List TaggedLine) : List TaggedLine :=
  lines.map fun t => ⟨t.kind, t.points.map (scaleMapPoint paperW paperH margin o w h)⟩

/-- The effective scale factor of `scale_to_a4`'s transform. -/
def scale_to_a4_scale (paperW paperH margin : ℚ) (o : Orient) (w h : ℚ) : ℚ :=
  scaleFactor
    (targetDims (scaleUsePortrait o (usable paperW margin) (usable paperH margin) w h)
      (usable paperW margin) (usable paperH margin)).1
    (targetDims (scaleUsePortrait o (usable paperW margin) (usable paperH margin) w h)
      (usable paperW margin) (usable paperH margin)).2
    (rotDims (needRotation (scaleUsePortrait o (usable paperW margin) (usable paperH margin) w h)
      w h) w h).1
    (rotDims (needRotation (scaleUsePortrait o (usable paperW margin) (usable paperH margin) w h)
      w h) w h).2

lemma sup_square_a4 (w : ℚ) (hw : 0 < w) :
    scaleUsePortrait Orient.auto (usable 210 1) (usable 297 1) w w = true := by
  simp only [scaleUsePortrait, usable]
  rw [decide_eq_true_eq, div_self (ne_of_gt hw)]
  rw [show (1 : ℚ) - (210 - 2 * 1) / (297 - 2 * 1) = 87 / 295 by norm_num]
  rw [show (1 : ℚ) - (297 - 2 * 1) / (210 - 2 * 1) = -(87 / 208) by norm_num]
  rw [abs_neg, abs_of_nonneg (by norm_num : (0 : ℚ) ≤ 87 / 295),
    abs_of_nonneg (by norm_num : (0 : ℚ) ≤ 87 / 208)]
  norm_num

lemma cup_square (w : ℚ) : convertUsePortrait Orient.auto w w = false := by
  simp only [convertUsePortrait]
  exact decide_eq_false (lt_irrefl w)

/-- C8 (amended): `scale_to_a4`'s auto rule picks the aspect-closest
orientation while `convert`'s auto rule just compares width with height, and
the two can disagree (a square image on A4 with margin 1); nevertheless the
pixel→mm scale `convert` computes always equals the effective scale factor of
`scale_to_a4`'s transform, because the 90° rotation swaps the same pair of
ratios inside the `min`. -/
theorem auto_orientation_scale_agreement :
    (∀ paperW paperH margin w h : ℚ,
        pixels_to_mm_scale paperW paperH margin Orient.auto w h =
          scale_to_a4_scale paperW paperH margin Orient.auto w h) ∧
    scaleUsePortrait Orient.auto (usable 210 1) (usable 297 1) 100 100 = true ∧
    convertUsePortrait Orient.auto 100 100 = false := by
  refine ⟨?_, sup_square_a4 100 (by norm_num), cup_square 100⟩
  intro paperW paperH margin w h
  unfold pixels_to_mm_scale scale_to_a4_scale scaleFactor
  cases hb : scaleUsePortrait Orient.auto (usable paperW margin) (usable paperH margin) w h with
  | false =>
      by_cases hwh : w = h
      · subst hwh
        rw [cup_square w]
        simp [needRotation, targetDims, rotDims]
      · by_cases hlt : w < h
        · have hc : convertUsePortrait Orient.auto w h = true := by
            simp only [convertUsePortrait]
            exact decide_eq_true hlt
          have hr : needRotation false w h = true := by
            simp only [needRotation, if_neg hwh]
            simp [hlt]
          rw [hc, hr]
          simp only [targetDims, rotDims, if_true, if_false]
          exact min_comm _ _
        · have hc : convertUsePortrait Orient.auto w h = false := by
            simp only [convertUsePortrait]
            exact decide_eq_false hlt
          have hr : needRotation false w h = false := by
            simp only [needRotation, if_neg hwh]
            simp [hlt]
          rw [hc, hr]
          simp [targetDims, rotDims]
  | true =>
      by_cases hwh : w = h
      · subst hwh
        rw [cup_square w]
        simp only [needRotation, if_pos rfl, targetDims, rotDims, if_true, if_false]
        exact min_comm _ _
      · by_cases hlt : w < h
        · have hc : convertUsePortrait Orient.auto w h = true := by
            simp only [convertUsePortrait]
            exact decide_eq_true hlt
          have hr : needRotation true w h = false := by
            simp only [needRotation, if_neg hwh]
            simp [hlt]
          rw [hc, hr]
          simp [targetDims, rotDims]
        · have hc : convertUsePortrait Orient.auto w h = false := by
            simp only [convertUsePortrait]
            exact decide_eq_false hlt
          have hr : needRotation true w h = true := by
            simp only [needRotation, if_neg hwh]
            simp [hlt]
          rw [hc, hr]
          simp only [targetDims, rotDims, if_true, if_false]
          exact min_comm _ _

/-- Counterexample to C8 as stated: on a square 100×100 image with A4 paper
and margin 1, `scale_to_a4`'s auto rule selects portrait while `convert`'s
auto rule selects landscape — the two decision sites disagree. -/
theorem auto_orientation_counterexample :
    scaleUsePortrait Orient.auto (usable 210 1) (usable 297 1) 100 100 ≠
      convertUsePortrait Orient.auto 100 100 := by
  rw [sup_square_a4 100 (by norm_num), cup_square 100]
  simp

/-- Paper width after the orientation choice of `scale_to_a4`. -/
def orientedWidth (paperW paperH margin : ℚ) (o : Orient) (w h : ℚ) : ℚ :=
  if scaleUsePortrait o (usable paperW margin) (usable paperH margin) w h then paperW else paperH

/-- Paper height after the orientation choice of `scale_to_a4`. -/
def orientedHeight (paperW paperH margin : ℚ) (o : Orient) (w h : ℚ) : ℚ :=
  if scaleUsePortrait o (usable paperW margin) (usable paperH margin) w h then paperH else paperW

/-- A pen move of the emitted program: pen-up travel (`G0 X.. Y..`) or
pen-down draw (`G1 X.. Y..`). -/
inductive Move
  | travel : Pt → Move
  | draw : Pt → Move
  deriving DecidableEq

/-- The coordinates of a move. -/
def Move.pt : Move → Pt
  | Move.travel p => p
  | Move.draw p => p

/-- The per-polyline moves `generate_gcode` writes: one travel to the first
vertex, then one draw per later vertex. -/
def polyMoves (l : List Pt) : List Move :=
  Move.travel (l.headD (0, 0)) :: l.tail.map Move.draw

/-- All polyline travel/draw moves of the emitted program, in order. -/
def gcodeMoves (lines : List (List Pt)) : List Move := (lines.map polyMoves).join

lemma a4Map_bounds (margin tw th w2 h2 : ℚ) (htw : 0 ≤ tw) (hth : 0 ≤ th)
    (hw2 : 0 < w2) (hh2 : 0 < h2) (p : Pt)
    (hx0 : 0 ≤ p.1) (hx1 : p.1 ≤ w2) (hy0 : 0 ≤ p.2) (hy1 : p.2 ≤ h2) :
    margin ≤ (a4Map margin tw th w2 h2 p).1 ∧ (a4Map margin tw th w2 h2 p).1 ≤ margin + tw ∧
    margin ≤ (a4Map margin tw th w2 h2 p).2 ∧ (a4Map margin tw th w2 h2 p).2 ≤ margin + th := by
  have hs0 : 0 ≤ scaleFactor tw th w2 h2 :=
    le_min (div_nonneg htw hw2.le) (div_nonneg hth hh2.le)
  have hsw : w2 * scaleFactor tw th w2 h2 ≤ tw := by
    have h1 : scaleFactor tw th w2 h2 ≤ tw / w2 := min_le_left _ _
    have h2 := mul_le_mul_of_nonneg_left h1 hw2.le
    rwa [mul_div_cancel₀ tw (ne_of_gt hw2)] at h2
  have hsh : h2 * scaleFactor tw th w2 h2 ≤ th := by
    have h1 : scaleFactor tw th w2 h2 ≤ th / h2 := min_le_right _ _
    have h2 := mul_le_mul_of_nonneg_left h1 hh2.le
    rwa [mul_div_cancel₀ th (ne_of_gt hh2)] at h2
  have hxs0 : 0 ≤ p.1 * scaleFactor tw th w2 h2 := mul_nonneg hx0 hs0
  have hxs1 : p.1 * scaleFactor tw th w2 h2 ≤ w2 * scaleFactor tw th w2 h2 :=
    mul_le_mul_of_nonneg_right hx1 hs0
  have hys0 : 0 ≤ (h2 - p.2) * scaleFactor tw th w2 h2 :=
    mul_nonneg (by linarith) hs0
  have hys1 : (h2 - p.2) * scaleFactor tw th w2 h2 ≤ h2 * scaleFactor tw th w2 h2 :=
    mul_le_mul_of_nonneg_right (by linarith) hs0
  unfold a4Map
  refine ⟨?_, ?_, ?_, ?_⟩ <;> dsimp only <;> linarith

lemma scaleMapPoint_bounds (paperW paperH margin : ℚ) (o : Orient) (w h : ℚ)
    (hw : 0 < w) (hh : 0 < h) (hpw : 2 * margin ≤ paperW) (hph : 2 * margin ≤ paperH)
    (q : Pt) (hq1 : 0 ≤ q.1) (hq2 : q.1 ≤ w) (hq3 : 0 ≤ q.2) (hq4 : q.2 ≤ h) :
    margin ≤ (scaleMapPoint paperW paperH margin o w h q).1 ∧
    (scaleMapPoint paperW paperH margin o w h q).1 ≤
      orientedWidth paperW paperH margin o w h - margin ∧
    margin ≤ (scaleMapPoint paperW paperH margin o w h q).2 ∧
    (scaleMapPoint paperW paperH margin o w h q).2 ≤
      orientedHeight paperW paperH margin o w h - margin := by
  have huW : 0 ≤ usable paperW margin := by unfold usable; linarith
  have huH : 0 ≤ usable paperH margin := by unfold usable; linarith
  unfold scaleMapPoint orientedWidth orientedHeight
  cases hup : scaleUsePortrait o (usable paperW margin) (usable paperH margin) w h with
  | false =>
      cases hrot : needRotation false w h with
      | false =>
          simp only [targetDims, rotDims, Bool.false_eq_true, eq_self_iff_true, if_true, if_false]
          have hb := a4Map_bounds margin (usable paperH margin) (usable paperW margin) w h
            huH huW hw hh q hq1 hq2 hq3 hq4
          refine ⟨hb.1, ?_, hb.2.2.1, ?_⟩
          · have := hb.2.1
            unfold usable at this ⊢
            linarith
          · have := hb.2.2.2
            unfold usable at this ⊢
            linarith
      | true =>
          simp only [targetDims, rotDims, Bool.false_eq_true, eq_self_iff_true, if_true, if_false]
          have hb := a4Map_bounds margin (usable paperH margin) (usable paperW margin) h w
            huH huW hh hw (rotCW h q) (by unfold rotCW; dsimp only; linarith)
            (by unfold rotCW; dsimp only; linarith) (by unfold rotCW; dsimp only; linarith)
            (by unfold rotCW; dsimp only; linarith)
          refine ⟨hb.1, ?_, hb.2.2.1, ?_⟩
          · have := hb.2.1
            unfold usable at this ⊢
            linarith
          · have := hb.2.2.2
            unfold usable at this ⊢
            linarith
  | true =>
      cases hrot : needRotation true w h with
      | false =>
          simp only [targetDims, rotDims, Bool.false_eq_true, eq_self_iff_true, if_true, if_false]
          have hb := a4Map_bounds margin (usable paperW margin) (usable paperH margin) w h
            huW huH hw hh q hq1 hq2 hq3 hq4
          refine ⟨hb.1, ?_, hb.2.2.1, ?_⟩
          · have := hb.2.1
            unfold usable at this ⊢
            linarith
          · have := hb.2.2.2
            unfold usable at this ⊢
            linarith
      | true =>
          simp only [targetDims, rotDims, Bool.false_eq_true, eq_self_iff_true, if_true, if_false]
          have hb := a4Map_bounds margin (usable paperW margin) (usable paperH margin) h w
            huW huH hh hw (rotCW h q) (by unfold rotCW; dsimp only; linarith)
            (by unfold rotCW; dsimp only; linarith) (by unfold rotCW; dsimp only; linarith)
            (by unfold rotCW; dsimp only; linarith)
          refine ⟨hb.1, ?_, hb.2.2.1, ?_⟩
          · have := hb.2.1
            unfold usable at this ⊢
            linarith
          · have := hb.2.2.2
            unfold usable at this ⊢
            linarith

/-- C10: every coordinate the emitter writes in a polyline's travel (G0) and
draw (G1) moves stays inside the margin-inset usable area of the oriented
sheet, provided every point of every polyline came from an image-bounded
pixel through `scale_to_a4`'s transform. -/
theorem gcode_moves_within_margins (paperW paperH margin : ℚ) (o : Orient) (w h : ℚ)
    (hw : 0 < w) (hh : 0 < h) (hpw : 2 * margin ≤ paperW) (hph : 2 * margin ≤ paperH)
    (lines : List (List Pt))
    (hsrc : ∀ l ∈ lines, l ≠ [] ∧ ∀ p ∈ l, ∃ q : Pt,
        (0 ≤ q.1 ∧ q.1 ≤ w ∧ 0 ≤ q.2 ∧ q.2 ≤ h) ∧
        p = scaleMapPoint paperW paperH margin o w h q) :
    ∀ mv ∈ gcodeMoves lines,
      margin ≤ (Move.pt mv).1 ∧
      (Move.pt mv).1 ≤ orientedWidth paperW paperH margin o w h - margin ∧
      margin ≤ (Move.pt mv).2 ∧
      (Move.pt mv).2 ≤ orientedHeight paperW paperH margin o w h - margin := by
  intro mv hmv
  rw [gcodeMoves, List.mem_join] at hmv
  obtain ⟨ms, hms, hmvms⟩ := hmv
  obtain ⟨l, hl, hlms⟩ := List.mem_map.mp hms
  obtain ⟨hlne, hpts⟩ := hsrc l hl
  have hptl : Move.pt mv ∈ l := by
    subst hlms
    rw [polyMoves] at hmvms
    rcases List.mem_cons.mp hmvms with hmv1 | hmv1
    · subst hmv1
      cases l with
      | nil => exact absurd rfl hlne
      | cons a tl => exact List.mem_cons_self _ _
    · obtain ⟨p, hp, hpe⟩ := List.mem_map.mp hmv1
      subst hpe
      cases l with
      | nil => exact absurd rfl hlne
      | cons a tl => exact List.mem_cons_of_mem _ hp
  obtain ⟨q, hqb, hqe⟩ := hpts (Move.pt mv) hptl
  rw [hqe]
  exact scaleMapPoint_bounds paperW paperH margin o w h hw hh hpw hph q
    hqb.1 hqb.2.1 hqb.2.2.1 hqb.2.2.2

/-- Witness for C10: the image corner pixel (0, 0) of a 100×100 image mapped
to A4 portrait with margin 1 lands inside the margin-inset area. -/
theorem gcode_moves_within_margins_witness :
    1 ≤ (Move.pt (Move.travel
        (scaleMapPoint 210 297 1 Orient.auto 100 100 ((0 : ℚ), (0 : ℚ))))).1 ∧
    (Move.pt (Move.travel (scaleMapPoint 210 297 1 Orient.auto 100 100
        ((0 : ℚ), (0 : ℚ))))).1 ≤ orientedWidth 210 297 1 Orient.auto 100 100 - 1 ∧
    1 ≤ (Move.pt (Move.travel (scaleMapPoint 210 297 1 Orient.auto 100 100
        ((0 : ℚ), (0 : ℚ))))).2 ∧
    (Move.pt (Move.travel (scaleMapPoint 210 297 1 Orient.auto 100 100
        ((0 : ℚ), (0 : ℚ))))).2 ≤ orientedHeight 210 297 1 Orient.auto 100 100 - 1 := by
  apply gcode_moves_within_margins 210 297 1 Orient.auto 100 100 (by norm_num) (by norm_num)
    (by norm_num) (by norm_num)
    [[scaleMapPoint 210 297 1 Orient.auto 100 100 ((0 : ℚ), (0 : ℚ))]]
  · intro l hl
    rw [List.mem_singleton.mp hl]
    refine ⟨List.cons_ne_nil _ _, ?_⟩
    intro p hp
    refine ⟨((0 : ℚ), (0 : ℚ)), by norm_num, ?_⟩
    rw [List.mem_singleton.mp hp]
  · show Move.travel _ ∈ gcodeMoves _
    rw [gcodeMoves]
    simp [polyMoves]

/-! The Emitter's totals (`generate_gcode`, lines 1057-1092).  The state is
(total draw distance, total travel distance, current position).  Mirroring the
source, the travel to a polyline's first vertex adds to the travel total but
does NOT update `current_pos`; only the draw loop over `line[1:]` updates it. -/

/-- One polyline's contribution to the emitter totals. -/
noncomputable def emitStep (st : ℝ × ℝ × Pt) (l : List Pt) : ℝ × ℝ × Pt :=
  ((l.tail.foldl (fun a p => (a.1 + edist p a.2, p)) (st.1, st.2.2)).1,
   st.2.1 + edist (l.headD (0, 0)) st.2.2,
   (l.tail.foldl (fun a p => (a.1 + edist p a.2, p)) (st.1, st.2.2)).2)

/-- The emitter totals over a toolpath, starting from the origin. -/
noncomputable def emitTotals (lines : List (List Pt)) : ℝ × ℝ × Pt :=
  lines.foldl emitStep (0, 0, ((0 : ℚ), (0 : ℚ)))

/-- The estimated duration the footer reports:
`(draw/feedRate + travel/travelRate) * 60` seconds. -/
noncomputable def est_time (feedRate travelRate : ℚ) (drawDist travelDist : ℝ) : ℝ :=
  (drawDist / (feedRate : ℝ) + travelDist / (travelRate : ℝ)) * 60

/-- C2 (code bug): for the single polyline from (1,0) to (2,0) the emitter
reports a total drawing distance of 2 — the first draw segment is measured
from the stale current position (0,0) instead of the polyline's first vertex —
while the sum of the polyline's consecutive-vertex segment lengths is 1. -/
theorem emitter_draw_distance_mismatch :
    (emitTotals [[((1 : ℚ), (0 : ℚ)), ((2 : ℚ), (0 : ℚ))]]).1 = 2 ∧
    ([[((1 : ℚ), (0 : ℚ)), ((2 : ℚ), (0 : ℚ))]].map line_length).sum = 1 ∧
    (emitTotals [[((1 : ℚ), (0 : ℚ)), ((2 : ℚ), (0 : ℚ))]]).2.1 = 1 ∧
    (2 : ℝ) ≠ 1 := by
  have h20 : edist ((2 : ℚ), (0 : ℚ)) (0 : Pt) = 2 := by
    rw [show (0 : Pt) = ((0 : ℚ), (0 : ℚ)) from rfl, edist_horiz]
    norm_num
  have h10 : edist ((1 : ℚ), (0 : ℚ)) (0 : Pt) = 1 := by
    rw [show (0 : Pt) = ((0 : ℚ), (0 : ℚ)) from rfl, edist_horiz]
    norm_num
  have h12 : edist ((1 : ℚ), (0 : ℚ)) ((2 : ℚ), (0 : ℚ)) = 1 := by
    rw [edist_horiz]
    rw [show ((1 : ℚ) : ℝ) - ((2 : ℚ) : ℝ) = -(1 : ℝ) by push_cast; norm_num, abs_neg]
    norm_num
  refine ⟨?_, ?_, ?_, by norm_num⟩
  · simp [emitTotals, emitStep, h20]
  · simp [line_length_pair, h12]
  · simp [emitTotals, emitStep, h10]

/-- The process exit status of `main`: `0 if success else 1`. -/
def exit_status {A : Type} (r : Option A) : ℕ :=
  match r with
  | none => 1
  | some _ => 0

/-- The `convert` pipeline downstream of line extraction: fail when the
extraction produced no polylines (the source prints a distinct error and
returns `False`, making the process exit with status 1 and write no output),
otherwise scale, join/filter, sequence. -/
noncomputable def convert (paperW paperH margin : ℚ) (o : Orient) (tol minLen : ℚ)
    (w h : ℚ) (lines : List TaggedLine) : Option (List (List Pt)) :=
  if lines.isEmpty then none
  else some (optimize_path margin
    (join_nearby_endpoints tol minLen (scale_to_a4 paperW paperH margin o w h lines)))

lemma convert_filter_all_eval :
    convert 210 297 1 Orient.auto (1 / 50) 100 10 10
      [⟨Kind.regular, [((0 : ℚ), (0 : ℚ)), ((1 : ℚ), (0 : ℚ))]⟩] = some [] := by
  have hsup : scaleUsePortrait Orient.auto (usable 210 1) (usable 297 1) 10 10 = true :=
    sup_square_a4 10 (by norm_num)
  have hscale : scale_to_a4 210 297 1 Orient.auto 10 10
      [⟨Kind.regular, [((0 : ℚ), (0 : ℚ)), ((1 : ℚ), (0 : ℚ))]⟩] =
      [⟨Kind.regular, [((1 : ℚ), (505 / 2 : ℚ)), ((109 / 5 : ℚ), (505 / 2 : ℚ))]⟩] := by
    rw [scale_to_a4]
    simp only [List.map_cons, List.map_nil]
    rw [scaleMapPoint, scaleMapPoint, hsup]
    norm_num [needRotation, targetDims, rotDims, a4Map, scaleFactor, usable, min_def]
  have hlen : ¬ (((100 : ℚ) : ℝ) ≤
      line_length [((1 : ℚ), (505 / 2 : ℚ)), ((109 / 5 : ℚ), (505 / 2 : ℚ))]) := by
    rw [line_length_pair, edist_horiz, not_le]
    rw [show ((1 : ℚ) : ℝ) - ((109 / 5 : ℚ) : ℝ) = -(104 / 5) by push_cast; norm_num, abs_neg]
    rw [abs_of_nonneg (by norm_num : (0 : ℝ) ≤ 104 / 5)]
    norm_num
  have hkeep : keepLen 100 [((1 : ℚ), (505 / 2 : ℚ)), ((109 / 5 : ℚ), (505 / 2 : ℚ))] = false := by
    unfold keepLen
    exact decide_eq_false hlen
  have hjoin : join_nearby_endpoints (1 / 50) 100
      [⟨Kind.regular, [((1 : ℚ), (505 / 2 : ℚ)), ((109 / 5 : ℚ), (505 / 2 : ℚ))]⟩] = [] := by
    rw [join_nearby_endpoints]
    have hreg : (([⟨Kind.regular, [((1 : ℚ), (505 / 2 : ℚ)), ((109 / 5 : ℚ), (505 / 2 : ℚ))]⟩] :
        List TaggedLine).filter fun t => t.kind = Kind.regular).map TaggedLine.points =
        [[((1 : ℚ), (505 / 2 : ℚ)), ((109 / 5 : ℚ), (505 / 2 : ℚ))]] := by
      simp [List.filter]
    have hsol : (([⟨Kind.regular, [((1 : ℚ), (505 / 2 : ℚ)), ((109 / 5 : ℚ), (505 / 2 : ℚ))]⟩] :
        List TaggedLine).filter fun t => t.kind = Kind.solid).map TaggedLine.points = [] := by
      simp [List.filter]
    rw [hreg, hsol]
    rw [joinLoop_single (1 / 50) 99 [((1 : ℚ), (505 / 2 : ℚ)), ((109 / 5 : ℚ), (505 / 2 : ℚ))]]
    simp [List.filter, hkeep]
  rw [convert]
  simp only [List.isEmpty_cons, if_false, Bool.false_eq_true]
  rw [hscale, hjoin]
  rw [show optimize_path 1 ([] : List (List Pt)) = [] by simp [optimize_path]]

/-- C1 (amended): when line extraction yields zero polylines the conversion
fails (no program is written, the process exits 1); but the emptiness check
happens only at extraction — when the post-join length filter drops every
polyline, `convert` still succeeds and an empty program with no drawing moves
is written with exit status 0. -/
theorem convert_empty_guard :
    (∀ (paperW paperH margin : ℚ) (o : Orient) (tol minLen w h : ℚ),
        convert paperW paperH margin o tol minLen w h [] = none ∧
        exit_status (convert paperW paperH margin o tol minLen w h []) = 1) ∧
    convert 210 297 1 Orient.auto (1 / 50) 100 10 10
      [⟨Kind.regular, [((0 : ℚ), (0 : ℚ)), ((1 : ℚ), (0 : ℚ))]⟩] = some [] ∧
    exit_status (convert 210 297 1 Orient.auto (1 / 50) 100 10 10
      [⟨Kind.regular, [((0 : ℚ), (0 : ℚ)), ((1 : ℚ), (0 : ℚ))]⟩]) = 0 ∧
    ([⟨Kind.regular, [((0 : ℚ), (0 : ℚ)), ((1 : ℚ), (0 : ℚ))]⟩] : List TaggedLine) ≠ [] := by
  refine ⟨?_, convert_filter_all_eval, ?_, by simp⟩
  · intro paperW paperH margin o tol minLen w h
    have hnone : convert paperW paperH margin o tol minLen w h [] = none := by
      rw [convert]
      simp
    exact ⟨hnone, by rw [hnone]; rfl⟩
  · rw [convert_filter_all_eval]
    rfl

/-- Counterexample to C1 as stated: a nonempty extraction whose only polyline
is dropped by the length filter makes `convert` succeed with an empty
toolpath, whose program contains no pen-down drawing moves — an empty program
is silently written with exit status 0. -/
theorem convert_silent_empty_counterexample :
    convert 210 297 1 Orient.auto (1 / 50) 100 10 10
      [⟨Kind.regular, [((0 : ℚ), (0 : ℚ)), ((1 : ℚ), (0 : ℚ))]⟩] = some [] ∧
    exit_status (convert 210 297 1 Orient.auto (1 / 50) 100 10 10
      [⟨Kind.regular, [((0 : ℚ), (0 : ℚ)), ((1 : ℚ), (0 : ℚ))]⟩]) = 0 ∧
    gcodeMoves [] = [] ∧
    ([⟨Kind.regular, [((0 : ℚ), (0 : ℚ)), ((1 : ℚ), (0 : ℚ))]⟩] : List TaggedLine) ≠ [] :=
  ⟨convert_filter_all_eval, by rw [convert_filter_all_eval]; rfl, rfl, by simp⟩

/-! The RegionClassifier (`detect_solid_areas`, lines 94-229): the
per-contour decision, as a function of the scalars OpenCV measures (`area`,
bounding box `w × h`, `hullArea`, `perim`, total `childrenArea`) and the
hierarchy facts (`hasChildren`, `isChild`, and for children whether the
parent sits in `rejected_outline_parents` / `parent_indices`).
`min_thickness = 0.15 = 3/20`; "compactness < c" is embedded as
`0 < effArea ∧ perim² / effArea < c`, matching the source's `float('inf')`
when the effective area is zero. -/
def detect_region (minSolidArea area w h hullArea perim childrenArea : ℚ)
    (hasChildren isChild parentRejected parentSolid : Bool) : Bool :=
  if (if 0 < area then area else w * h) < minSolidArea ∧
      ¬ ((w < 20 ∧ 15 < h) ∨ (h < 20 ∧ 15 < w)) then false
  else
    if (if 0 < hullArea then (if 0 < area then area else w * h) / hullArea
        else if 0 < (if 0 < area then area else w * h) then (1 : ℚ) else 0) ≤ 0 then false
    else
      if hasChildren ∧ ¬ isChild then
        if 500 < (if 0 < area then area else w * h) ∧
            3 / 2 < (if 0 < area then (if 0 < perim then area / perim else 0) else min w h) ∧
            0 < (if 0 < area then area else w * h) ∧
            perim * perim / (if 0 < area then area else w * h) < 1500 then true
        else if 2 / 5 < (if 0 < hullArea then (if 0 < area then area else w * h) / hullArea
              else if 0 < (if 0 < area then area else w * h) then (1 : ℚ) else 0) ∧
            (0 < (if 0 < area then area else w * h) ∧
              perim * perim / (if 0 < area then area else w * h) < 200) ∧
            3 / 20 < (if 0 < (if 0 < area then area else w * h) then
              ((if 0 < area then area else w * h) - childrenArea) /
                (if 0 < area then area else w * h) else 0) ∧
            3 / 20 ≤ (if 0 < area then (if 0 < perim then area / perim else 0)
              else min w h) then true
        else false
      else if 1 / 4 < (if 0 < hullArea then (if 0 < area then area else w * h) / hullArea
            else if 0 < (if 0 < area then area else w * h) then (1 : ℚ) else 0) ∧
          3 / 20 ≤ (if 0 < area then (if 0 < perim then area / perim else 0) else min w h) then
        if ¬ hasChildren ∧ ¬ isChild then true
        else if isChild then
          if parentRejected then false
          else if ¬ parentSolid then
            if 19 / 20 < (if 0 < hullArea then (if 0 < area then area else w * h) / hullArea
                else if 0 < (if 0 < area then area else w * h) then (1 : ℚ) else 0) ∧
                0 < (if 0 < area then area else w * h) ∧
                perim * perim / (if 0 < area then area else w * h) < 50 then true
            else false
          else false
        else if ¬ hasChildren ∧ 0 < (if 0 < area then area else w * h) ∧
            perim * perim / (if 0 < area then area else w * h) < 100 then true
        else false
      else if ¬ isChild ∧
          3 / 20 ≤ (if 0 < area then (if 0 < perim then area / perim else 0) else min w h) then
        if 500 < (if 0 < area then area else w * h) ∧
            3 / 2 < (if 0 < area then (if 0 < perim then area / perim else 0) else min w h) ∧
            0 < (if 0 < area then area else w * h) ∧
            perim * perim / (if 0 < area then area else w * h) < 1500 then true
        else false
      else false

/-- C9: a degenerate 1px-tall, 100px-wide bar (contour area 0, so the bbox
area 100 is used; hull area 0, so solidity falls back to 1; thickness
min(w,h) = 1) with no children and no parent is classified as a Region under
the default minimum solid area 100, for every measured perimeter; and any
contour whose effective area is below the minimum and which is not
thin-but-long is never a Region. -/
theorem detect_region_thin_bar :
    (∀ (perim : ℚ) (pr ps : Bool),
        detect_region 100 0 100 1 0 perim 0 false false pr ps = true) ∧
    (∀ (minA area w h hullArea perim ca : ℚ) (hc ic pr ps : Bool),
        (if 0 < area then area else w * h) < minA →
        ¬ ((w < 20 ∧ 15 < h) ∨ (h < 20 ∧ 15 < w)) →
        detect_region minA area w h hullArea perim ca hc ic pr ps = false) := by
  constructor
  · intro perim pr ps
    rw [detect_region]
    norm_num
  · intro minA area w h hullArea perim ca hc ic pr ps h1 h2
    rw [detect_region, if_pos ⟨h1, h2⟩]

/-- Witness for C9: the bar at perimeter 198, and a 3×3 contour of area 10
(below the minimum 100, not thin-but-long) that is rejected. -/
theorem detect_region_thin_bar_witness :
    detect_region 100 0 100 1 0 198 0 false false false false = true ∧
    detect_region 100 10 3 3 9 12 0 false false false false = false := by
  constructor
  · exact (detect_region_thin_bar).1 198 false false
  · apply (detect_region_thin_bar).2
    · norm_num
    · norm_num

/-! The HatchFiller (`generate_hatch_lines`, lines 236-624).  Rasterised
masks built by `cv2.drawContours` are external and enter as abstract
functions `ℤ → ℤ → Bool` (out-of-image lookups folded in as `false`, which
merges the source's bounds check with its mask check — both close an open run
and stop the boundary extension identically).  In the general angled branch
the mask is the boundary fill minus the hole fills (`regionMask`); in the two
thin degenerate branches the source builds the mask from the boundary contour
alone and never subtracts holes.  Sample positions along a hatch line are the
arithmetic progression `start + i·Δ` with `Δ = line_vec/(num_samples-1)`;
`d` stands for the extension step `0.2·(cos θ, sin θ)`.  Pixel lookups round
with Python's `int(round(x))`, i.e. round-half-to-even (`rnd`). -/

/-- Python `int(round(x))`: round half to even. -/
def rnd (q : ℚ) : ℤ :=
  if q - (⌊q⌋ : ℚ) < 1 / 2 then ⌊q⌋
  else if 1 / 2 < q - (⌊q⌋ : ℚ) then ⌊q⌋ + 1
  else if Even ⌊q⌋ then ⌊q⌋ else ⌊q⌋ + 1

/-- Both coordinates rounded to the pixel grid. -/
def rndPt (p : Pt) : ℤ × ℤ := (rnd p.1, rnd p.2)

/-- Mask lookup at the rounded position (`mask[int(round(y)), int(round(x))]`). -/
def maskAtP (mask : ℤ → ℤ → Bool) (p : Pt) : Bool := mask (rnd p.1) (rnd p.2)

/-- Scalar multiple of a point. -/
def pSc (c : ℚ) (v : Pt) : Pt := (c * v.1, c * v.2)

/-- Boundary fill minus all hole fills: the mask of the general branch. -/
def regionMask (b : ℤ → ℤ → Bool) (holes : List (ℤ → ℤ → Bool)) (x y : ℤ) : Bool :=
  b x y && !(holes.any fun hm => hm x y)

/-- State of the run-detection scan along one hatch line: collected
`intersections`, the `in_mask` flag, and the open `segment_start`. -/
structure ScanSt where
  segs : List (Pt × Pt)
  inMask : Bool
  segStart : Option Pt

/-- One sample of the scan: entering the mask opens a run; leaving it (or
leaving the image, which the folded mask also reports as `false`) closes the
run at the current sample. -/
def scanStep (mask : ℤ → ℤ → Bool) (st : ScanSt) (p : Pt) : ScanSt :=
  if maskAtP mask p then
    if st.inMask then st else ⟨st.segs, true, some p⟩
  else if st.inMask then
    match st.segStart with
    | some s => ⟨st.segs ++ [(s, p)], false, none⟩
    | none => ⟨st.segs, false, none⟩
  else st

/-- The sampling loop over `n` samples spaced by `d`, starting at `p`. -/
def scanAux (mask : ℤ → ℤ → Bool) (d : Pt) : ℕ → Pt → ScanSt → ScanSt
  | 0, _, st => st
  | n + 1, p, st => scanAux mask d n (p + d) (scanStep mask st p)

/-- The exact line end, which is also the last sample (`t = 1`). -/
def lineEndPt (start d : Pt) (n : ℕ) : Pt := start + pSc ((n : ℚ) - 1) d

/-- All mask-covered runs found along one hatch line; a run still open after
the last sample is closed at the line end. -/
def scanSegs (mask : ℤ → ℤ → Bool) (start d : Pt) (n : ℕ) : List (Pt × Pt) :=
  if (scanAux mask d n start ⟨[], false, none⟩).inMask then
    match (scanAux mask d n start ⟨[], false, none⟩).segStart with
    | some s => (scanAux mask d n start ⟨[], false, none⟩).segs ++ [(s, lineEndPt start d n)]
    | none => (scanAux mask d n start ⟨[], false, none⟩).segs
  else (scanAux mask d n start ⟨[], false, none⟩).segs

/-- `extend_to_boundary_precise`: march from `pos` in steps of `d`
(`0.2 × direction` in the source), remembering the last position whose
rounded pixel was still in the mask; stop on leaving the mask or the image. -/
def extendB (mask : ℤ → ℤ → Bool) (d : Pt) : ℕ → Pt → Pt → Pt
  | 0, _, lv => lv
  | f + 1, pos, lv =>
    if maskAtP mask (pos + d) then extendB mask d f (pos + d) (pos + d) else lv

/-- Emission of the runs: extend both ends outward, keep runs longer than
half a pixel (`‖e - s‖ > 0.5`, i.e. squared length above 1/4), and round the
endpoints to integer pixels. -/
def hatchSegsOut (mask : ℤ → ℤ → Bool) (d : Pt) (fuel : ℕ) (segs : List (Pt × Pt)) :
    List ((ℤ × ℤ) × (ℤ × ℤ)) :=
  segs.filterMap fun sg =>
    if 1 / 4 < dist2 (extendB mask (-d) fuel sg.1 sg.1) (extendB mask d fuel sg.2 sg.2) then
      some (rndPt (extendB mask (-d) fuel sg.1 sg.1), rndPt (extendB mask d fuel sg.2 sg.2))
    else none

/-- The general angled branch for one hatch line: sample, split into runs,
extend, filter, round.  `start`, `Δ` and `n` abstract the offset loop's
unclamped line construction; the same machinery with coarser sampling also
covers the extra corner-bundle lines. -/
def generalHatchSegs (mask : ℤ → ℤ → Bool) (start Δ d : Pt) (n fuel : ℕ) :
    List ((ℤ × ℤ) × (ℤ × ℤ)) :=
  hatchSegsOut mask d fuel (scanSegs mask start Δ n)

/-- Thin-branch spacing: `min(1.0, ext/2.0) if ext > 2 else 1.0`. -/
def vert_spacing (ext : ℚ) : ℚ := if 2 < ext then min 1 (ext / 2) else 1

/-- Thin-branch line count: `max(int(ext / spacing) + 1, 2)`. -/
def num_lines (ext : ℚ) : ℕ := max (Int.toNat ⌊ext / vert_spacing ext⌋ + 1) 2

/-- The scanned coordinates `int(round(start + i*ext/(num_lines-1)))` of the
thin branch (`num_lines ≥ 2` always, so the division never degenerates). -/
def thin_rows (start ext : ℚ) : List ℤ :=
  (List.range (num_lines ext)).map fun i => rnd (start + i * ext / ((num_lines ext : ℚ) - 1))

/-- One row of the thin-horizontal branch: the leftmost and rightmost mask
pixels of the row (`np.where(row > 0)[0]`, first and last). -/
def thinRowSegment (mask : ℤ → ℤ → Bool) (wBound : ℕ) (yl : ℤ) :
    Option ((ℤ × ℤ) × (ℤ × ℤ)) :=
  match (List.range wBound).filterMap
      (fun i : ℕ => if mask (i : ℤ) yl then some ((i : ℤ)) else none) with
  | [] => none
  | x0 :: rest => some ((x0, yl), (rest.getLastD x0, yl))

/-- The thin-horizontal branch: horizontal extreme-pixel segments at the
sampled rows that lie inside the image. -/
def thin_horizontal (mask : ℤ → ℤ → Bool) (wBound hBound : ℕ) (y ext : ℚ) :
    List ((ℤ × ℤ) × (ℤ × ℤ)) :=
  (thin_rows y ext).filterMap fun yl =>
    if 0 ≤ yl ∧ yl < (hBound : ℤ) then thinRowSegment mask wBound yl else none

/-- One column of the thin-vertical branch: topmost and bottommost mask
pixels of the column. -/
def thinColSegment (mask : ℤ → ℤ → Bool) (hBound : ℕ) (xl : ℤ) :
    Option ((ℤ × ℤ) × (ℤ × ℤ)) :=
  match (List.range hBound).filterMap
      (fun i : ℕ => if mask xl (i : ℤ) then some ((i : ℤ)) else none) with
  | [] => none
  | y0 :: rest => some ((xl, y0), (xl, rest.getLastD y0))

/-- The thin-vertical branch (the column formulas mirror the row ones with
the width in place of the height). -/
def thin_vertical (mask : ℤ → ℤ → Bool) (wBound hBound : ℕ) (x ext : ℚ) :
    List ((ℤ × ℤ) × (ℤ × ℤ)) :=
  (thin_rows x ext).filterMap fun xl =>
    if 0 ≤ xl ∧ xl < (wBound : ℤ) then thinColSegment mask hBound xl else none

/-- Thin-horizontal dispatch test: `h < 8 and w / h > 4`. -/
def isThinHorizontal (w h : ℚ) : Bool := decide (h < 8) && decide (4 < w / h)

/-- Thin-vertical dispatch test: `w < 8 and h / w > 4`. -/
def isThinVertical (w h : ℚ) : Bool := decide (w < 8) && decide (4 < h / w)

/-- A run is good when its start is on an in-mask pixel and its end is on an
in-mask pixel or exactly one sampling step past one. -/
def GoodSeg (mask : ℤ → ℤ → Bool) (d : Pt) (sg : Pt × Pt) : Prop :=
  maskAtP mask sg.1 = true ∧
  (maskAtP mask sg.2 = true ∨ maskAtP mask (sg.2 - d) = true)

/-- Scan invariant at the moment the next sample is `p`: all closed runs are
good, and while a run is open its start pixel is in the mask and so was the
previous sample `p - d`. -/
def ScanInv (mask : ℤ → ℤ → Bool) (d : Pt) (p : Pt) (st : ScanSt) : Prop :=
  (∀ sg ∈ st.segs, GoodSeg mask d sg) ∧
  (st.inMask = true → (∃ s, st.segStart = some s ∧ maskAtP mask s = true) ∧
    maskAtP mask (p - d) = true)

lemma scanStep_inv (mask : ℤ → ℤ → Bool) (d p : Pt) (st : ScanSt)
    (h : ScanInv mask d p st) : ScanInv mask d (p + d) (scanStep mask st p) := by
  have hpd : p + d - d = p := by
    cases p
    cases d
    simp [Prod.ext_iff]
  rw [scanStep]
  by_cases hm : maskAtP mask p = true
  · rw [if_pos hm]
    by_cases hin : st.inMask = true
    · rw [if_pos hin]
      exact ⟨h.1, fun _ => ⟨(h.2 hin).1, by rw [hpd]; exact hm⟩⟩
    · rw [if_neg hin]
      exact ⟨h.1, fun _ => ⟨⟨p, rfl, hm⟩, by rw [hpd]; exact hm⟩⟩
  · rw [if_neg hm]
    by_cases hin : st.inMask = true
    · rw [if_pos hin]
      obtain ⟨⟨s, hs, hsm⟩, hprev⟩ := h.2 hin
      rw [hs]
      refine ⟨?_, fun hc => absurd hc Bool.false_ne_true⟩
      intro sg hsg
      rcases List.mem_append.mp hsg with h1 | h1
      · exact h.1 sg h1
      · rw [List.mem_singleton.mp h1]
        exact ⟨hsm, Or.inr (by rw [show (s, p).2 - d = p - d from rfl]; exact hprev)⟩
    · rw [if_neg hin]
      exact ⟨h.1, fun hc => absurd hc hin⟩

lemma scanAux_inv (mask : ℤ → ℤ → Bool) (d : Pt) :
    ∀ (n : ℕ) (p : Pt) (st : ScanSt), ScanInv mask d p st →
      ScanInv mask d (p + pSc (n : ℚ) d) (scanAux mask d n p st)
  | 0, p, st, h => by
      rw [scanAux]
      have he : p + pSc ((0 : ℕ) : ℚ) d = p := by
        cases p
        cases d
        simp [pSc]
      rw [he]
      exact h
  | n + 1, p, st, h => by
      rw [scanAux]
      have h2 := scanAux_inv mask d n (p + d) (scanStep mask st p) (scanStep_inv mask d p st h)
      have he : p + d + pSc (n : ℚ) d = p + pSc ((n + 1 : ℕ) : ℚ) d := by
        cases p
        cases d
        simp only [pSc, Prod.ext_iff, Prod.fst_add, Prod.snd_add, Prod.mk_add_mk]
        constructor <;> push_cast <;> ring
      rw [he] at h2
      exact h2

lemma scanSegs_good (mask : ℤ → ℤ → Bool) (start d : Pt) (n : ℕ) :
    ∀ sg ∈ scanSegs mask start d n, GoodSeg mask d sg := by
  have hinv := scanAux_inv mask d n start ⟨[], false, none⟩
    ⟨by simp, fun hc => absurd hc Bool.false_ne_true⟩
  rw [scanSegs]
  by_cases hin : (scanAux mask d n start ⟨[], false, none⟩).inMask = true
  · rw [if_pos hin]
    obtain ⟨⟨s, hs, hsm⟩, hprev⟩ := hinv.2 hin
    rw [hs]
    intro sg hsg
    rcases List.mem_append.mp hsg with h1 | h1
    · exact hinv.1 sg h1
    · rw [List.mem_singleton.mp h1]
      refine ⟨hsm, Or.inl ?_⟩
      have he : lineEndPt start d n = start + pSc ((n : ℕ) : ℚ) d - d := by
        cases start
        cases d
        simp only [lineEndPt, pSc, Prod.ext_iff, Prod.fst_add, Prod.snd_add, Prod.mk_add_mk,
          Prod.mk_sub_mk, Prod.fst_sub, Prod.snd_sub]
        constructor <;> push_cast <;> ring
      rw [show ((s, lineEndPt start d n) : Pt × Pt).2 = lineEndPt start d n from rfl, he]
      exact hprev
  · rw [if_neg hin]
    exact hinv.1

lemma extendB_spec (mask : ℤ → ℤ → Bool) (d : Pt) :
    ∀ (f : ℕ) (pos lv : Pt), extendB mask d f pos lv = lv ∨
      maskAtP mask (extendB mask d f pos lv) = true
  | 0, _, _ => Or.inl rfl
  | f + 1, pos, lv => by
      rw [extendB]
      by_cases hm : maskAtP mask (pos + d) = true
      · rw [if_pos hm]
        rcases extendB_spec mask d f (pos + d) (pos + d) with h | h
        · rw [h]
          exact Or.inr hm
        · exact Or.inr h
      · rw [if_neg hm]
        exact Or.inl rfl

lemma generalHatchSegs_spec (mask : ℤ → ℤ → Bool) (start Δ d : Pt) (n fuel : ℕ) :
    ∀ P Q : ℤ × ℤ, (P, Q) ∈ generalHatchSegs mask start Δ d n fuel →
      mask P.1 P.2 = true ∧
      (mask Q.1 Q.2 = true ∨ ∃ e : Pt, Q = rndPt e ∧ maskAtP mask (e - Δ) = true) := by
  intro P Q hPQ
  rw [generalHatchSegs, hatchSegsOut, List.mem_filterMap] at hPQ
  obtain ⟨sg, hsg, hsome⟩ := hPQ
  have hgood := scanSegs_good mask start Δ n sg hsg
  by_cases hc : 1 / 4 <
      dist2 (extendB mask (-d) fuel sg.1 sg.1) (extendB mask d fuel sg.2 sg.2)
  · rw [if_pos hc] at hsome
    injection hsome with hsome
    injection hsome with hP hQ
    constructor
    · rcases extendB_spec mask (-d) fuel sg.1 sg.1 with h | h
      · rw [← hP, h]
        exact hgood.1
      · rw [← hP]
        exact h
    · rcases extendB_spec mask d fuel sg.2 sg.2 with h | h
      · rcases hgood.2 with hg | hg
        · left
          rw [← hQ, h]
          exact hg
        · right
          exact ⟨sg.2, by rw [← hQ, h], hg⟩
      · left
        rw [← hQ]
        exact h
  · rw [if_neg hc] at hsome
    exact absurd hsome (by simp)

lemma mask_of_filterMap_some (mask : ℤ → ℤ → Bool) (yl : ℤ) (i : ℕ) (x0 : ℤ)
    (h : (if mask (i : ℤ) yl then some ((i : ℤ)) else none) = some x0) :
    mask x0 yl = true := by
  by_cases hm : mask (i : ℤ) yl = true
  · rw [if_pos hm] at h
    injection h with h
    rw [← h]
    exact hm
  · rw [if_neg hm] at h
    exact absurd h (by simp)

lemma thinRowSegment_spec (mask : ℤ → ℤ → Bool) (wB : ℕ) (yl : ℤ)
    (p q : ℤ × ℤ) (h : thinRowSegment mask wB yl = some (p, q)) :
    mask p.1 p.2 = true ∧ mask q.1 q.2 = true := by
  rw [thinRowSegment] at h
  cases hxs : (List.range wB).filterMap
      (fun i : ℕ => if mask (i : ℤ) yl then some ((i : ℤ)) else none) with
  | nil =>
      rw [hxs] at h
      exact absurd h (by simp)
  | cons x0 rest =>
      rw [hxs] at h
      injection h with h
      injection h with h1 h2
      have hx0 : x0 ∈ x0 :: rest := List.mem_cons_self _ _
      have hlast : rest.getLastD x0 ∈ x0 :: rest := List.getLastD_mem_cons _ _
      rw [← hxs] at hx0 hlast
      obtain ⟨i, _, hi⟩ := List.mem_filterMap.mp hx0
      obtain ⟨j, _, hj⟩ := List.mem_filterMap.mp hlast
      constructor
      · rw [← h1]
        exact mask_of_filterMap_some mask yl i x0 hi
      · rw [← h2]
        exact mask_of_filterMap_some mask yl j (rest.getLastD x0) hj

lemma thinColSegment_spec (mask : ℤ → ℤ → Bool) (hB : ℕ) (xl : ℤ)
    (p q : ℤ × ℤ) (h : thinColSegment mask hB xl = some (p, q)) :
    mask p.1 p.2 = true ∧ mask q.1 q.2 = true := by
  rw [thinColSegment] at h
  cases hys : (List.range hB).filterMap
      (fun i : ℕ => if mask xl (i : ℤ) then some ((i : ℤ)) else none) with
  | nil =>
      rw [hys] at h
      exact absurd h (by simp)
  | cons y0 rest =>
      rw [hys] at h
      injection h with h
      injection h with h1 h2
      have hy0 : y0 ∈ y0 :: rest := List.mem_cons_self _ _
      have hlast : rest.getLastD y0 ∈ y0 :: rest := List.getLastD_mem_cons _ _
      rw [← hys] at hy0 hlast
      obtain ⟨i, _, hi⟩ := List.mem_filterMap.mp hy0
      obtain ⟨j, _, hj⟩ := List.mem_filterMap.mp hlast
      have hkey : ∀ (k : ℕ) (v : ℤ),
          (if mask xl (k : ℤ) then some ((k : ℤ)) else none) = some v →
            mask xl v = true := by
        intro k v hkv
        by_cases hm : mask xl (k : ℤ) = true
        · rw [if_pos hm] at hkv
          injection hkv with hkv
          rw [← hkv]
          exact hm
        · rw [if_neg hm] at hkv
          exact absurd hkv (by simp)
      constructor
      · rw [← h1]
        exact hkey i y0 hi
      · rw [← h2]
        exact hkey j (rest.getLastD y0) hj

/-- C3 (amended): in the general angled branch every emitted hatch segment
has its start pixel inside the boundary and outside all holes, and its end
pixel likewise or else it is the rounding of a point exactly one sampling
step past an in-mask point (the sampling tolerance); in the thin degenerate
branches both endpoints are exact extreme pixels of the boundary mask — but
holes are not subtracted there. -/
theorem hatch_containment :
    (∀ (b : ℤ → ℤ → Bool) (holes : List (ℤ → ℤ → Bool)) (start Δ d : Pt) (n fuel : ℕ)
        (P Q : ℤ × ℤ), (P, Q) ∈ generalHatchSegs (regionMask b holes) start Δ d n fuel →
          regionMask b holes P.1 P.2 = true ∧
          (regionMask b holes Q.1 Q.2 = true ∨
            ∃ e : Pt, Q = rndPt e ∧ maskAtP (regionMask b holes) (e - Δ) = true)) ∧
    (∀ (mask : ℤ → ℤ → Bool) (wB hB : ℕ) (y ext : ℚ) (sg : (ℤ × ℤ) × (ℤ × ℤ)),
        sg ∈ thin_horizontal mask wB hB y ext →
          mask sg.1.1 sg.1.2 = true ∧ mask sg.2.1 sg.2.2 = true) ∧
    (∀ (mask : ℤ → ℤ → Bool) (wB hB : ℕ) (x ext : ℚ) (sg : (ℤ × ℤ) × (ℤ × ℤ)),
        sg ∈ thin_vertical mask wB hB x ext →
          mask sg.1.1 sg.1.2 = true ∧ mask sg.2.1 sg.2.2 = true) := by
  refine ⟨?_, ?_, ?_⟩
  · intro b holes start Δ d n fuel P Q hPQ
    exact generalHatchSegs_spec (regionMask b holes) start Δ d n fuel P Q hPQ
  · intro mask wB hB y ext sg hsg
    rw [thin_horizontal, List.mem_filterMap] at hsg
    obtain ⟨yl, _, hif⟩ := hsg
    by_cases hb : 0 ≤ yl ∧ yl < (hB : ℤ)
    · rw [if_pos hb] at hif
      exact thinRowSegment_spec mask wB yl sg.1 sg.2 hif
    · rw [if_neg hb] at hif
      exact absurd hif (by simp)
  · intro mask wB hB x ext sg hsg
    rw [thin_vertical, List.mem_filterMap] at hsg
    obtain ⟨xl, _, hif⟩ := hsg
    by_cases hb : 0 ≤ xl ∧ xl < (wB : ℤ)
    · rw [if_pos hb] at hif
      exact thinColSegment_spec mask hB xl sg.1 sg.2 hif
    · rw [if_neg hb] at hif
      exact absurd hif (by simp)

/-- Boundary fill of a 30×6 bar, as the thin-horizontal branch would get from
`cv2.drawContours` on the outer contour alone. -/
def bEx (x y : ℤ) : Bool := decide (0 ≤ x ∧ x < 30 ∧ 0 ≤ y ∧ y < 6)

/-- A hole fill touching the bar's left edge at row 3. -/
def hEx (x y : ℤ) : Bool := decide (0 ≤ x ∧ x ≤ 5 ∧ y = 3)

/-- A 3-pixel boundary row, hole-free, for the general-branch witness. -/
def bwEx (x y : ℤ) : Bool := decide (0 ≤ x ∧ x ≤ 2 ∧ y = 0)

lemma rnd_int (z : ℤ) : rnd ((z : ℚ)) = z := by
  rw [rnd, Int.floor_intCast]
  norm_num

lemma rnd_eq_of_eq_int (q : ℚ) (z : ℤ) (h : q = (z : ℚ)) : rnd q = z := by
  rw [h, rnd_int]

lemma thin_rows_0_6 : thin_rows 0 6 = [0, 1, 2, 3, 4, 5, 6] := by
  have h1 : vert_spacing 6 = 1 := by norm_num [vert_spacing, min_def]
  have h2 : num_lines 6 = 7 := by
    rw [num_lines, h1]
    rw [show ((6 : ℚ) / 1) = ((6 : ℤ) : ℚ) by norm_num, Int.floor_intCast]
    decide
  rw [thin_rows, h2]
  show List.map _ [0, 1, 2, 3, 4, 5, 6] = _
  rw [List.map_cons, List.map_cons, List.map_cons, List.map_cons, List.map_cons,
    List.map_cons, List.map_cons, List.map_nil]
  refine congrArg₂ _ ?_ (congrArg₂ _ ?_ (congrArg₂ _ ?_ (congrArg₂ _ ?_ (congrArg₂ _ ?_
    (congrArg₂ _ ?_ (congrArg₂ _ ?_ rfl)))))) <;>
    · apply rnd_eq_of_eq_int
      push_cast
      norm_num

/-- Counterexample to C3 as stated: the thin-horizontal branch (which a 30×6
bar dispatches to) emits the segment from (0,3) to (29,3), and its start
endpoint lies inside the hole `hEx` — the thin branch never subtracts holes,
so the endpoint is not outside all holes. -/
theorem thin_branch_hole_counterexample :
    isThinHorizontal 30 6 = true ∧
    (((0, 3), (29, 3)) : (ℤ × ℤ) × (ℤ × ℤ)) ∈ thin_horizontal bEx 30 6 0 6 ∧
    regionMask bEx [hEx] 0 3 = false := by
  refine ⟨by norm_num [isThinHorizontal], ?_, by decide⟩
  rw [thin_horizontal]
  apply List.mem_filterMap.mpr
  refine ⟨3, ?_, ?_⟩
  · rw [thin_rows_0_6]
    decide
  · rw [if_pos (by decide : (0 : ℤ) ≤ 3 ∧ (3 : ℤ) < ((6 : ℕ) : ℤ))]
    decide

/-- Witness for C3 on concrete inputs: a general-branch segment over the
3-pixel boundary `bwEx` with no holes, and a thin-branch segment over `bEx`. -/
theorem hatch_containment_witness :
    (regionMask bwEx [] 0 0 = true ∧
      (regionMask bwEx [] 3 0 = true ∨
        ∃ e : Pt, ((3, 0) : ℤ × ℤ) = rndPt e ∧
          maskAtP (regionMask bwEx []) (e - ((1 : ℚ), (0 : ℚ))) = true)) ∧
    bEx 0 0 = true ∧ bEx 29 0 = true := by
  have hMp : ∀ p : Pt, maskAtP (regionMask bwEx []) p = bwEx (rnd p.1) (rnd p.2) := by
    intro p
    rw [maskAtP]
    simp [regionMask]
  have r0 : rnd ((0 : ℚ)) = 0 := rnd_eq_of_eq_int _ 0 (by norm_num)
  have r1 : rnd ((1 : ℚ)) = 1 := rnd_eq_of_eq_int _ 1 (by norm_num)
  have r2 : rnd ((2 : ℚ)) = 2 := rnd_eq_of_eq_int _ 2 (by norm_num)
  have r3 : rnd ((3 : ℚ)) = 3 := rnd_eq_of_eq_int _ 3 (by norm_num)
  have hr_n15 : rnd (-(1 / 5) : ℚ) = 0 := by
    rw [rnd]
    rw [show ⌊(-(1 / 5) : ℚ)⌋ = -1 by rw [Int.floor_eq_iff] <;> norm_num]
    norm_num
  have hr_n25 : rnd (-(2 / 5) : ℚ) = 0 := by
    rw [rnd]
    rw [show ⌊(-(2 / 5) : ℚ)⌋ = -1 by rw [Int.floor_eq_iff] <;> norm_num]
    norm_num
  have hr_n35 : rnd (-(3 / 5) : ℚ) = -1 := by
    rw [rnd]
    rw [show ⌊(-(3 / 5) : ℚ)⌋ = -1 by rw [Int.floor_eq_iff] <;> norm_num]
    norm_num
  have hr_165 : rnd ((16 / 5 : ℚ)) = 3 := by
    rw [rnd]
    rw [show ⌊((16 / 5) : ℚ)⌋ = 3 by rw [Int.floor_eq_iff] <;> norm_num]
    norm_num
  have hm0 : maskAtP (regionMask bwEx []) ((0 : ℚ), (0 : ℚ)) = true := by
    rw [hMp]
    dsimp only
    rw [r0]
    decide
  have hm1 : maskAtP (regionMask bwEx []) ((1 : ℚ), (0 : ℚ)) = true := by
    rw [hMp]
    dsimp only
    rw [r1, r0]
    decide
  have hm2 : maskAtP (regionMask bwEx []) ((2 : ℚ), (0 : ℚ)) = true := by
    rw [hMp]
    dsimp only
    rw [r2, r0]
    decide
  have hm3f : maskAtP (regionMask bwEx []) ((3 : ℚ), (0 : ℚ)) = false := by
    rw [hMp]
    dsimp only
    rw [r3, r0]
    decide
  have hm3ne : ¬ (maskAtP (regionMask bwEx []) ((3 : ℚ), (0 : ℚ)) = true) := by
    rw [hm3f]
    exact Bool.false_ne_true
  have hmn15 : maskAtP (regionMask bwEx []) ((-(1 / 5) : ℚ), (0 : ℚ)) = true := by
    rw [hMp]
    dsimp only
    rw [hr_n15, r0]
    decide
  have hmn25 : maskAtP (regionMask bwEx []) ((-(2 / 5) : ℚ), (0 : ℚ)) = true := by
    rw [hMp]
    dsimp only
    rw [hr_n25, r0]
    decide
  have hmn35ne : ¬ (maskAtP (regionMask bwEx []) ((-(3 / 5) : ℚ), (0 : ℚ)) = true) := by
    rw [hMp]
    dsimp only
    rw [hr_n35, r0]
    decide
  have hm165ne : ¬ (maskAtP (regionMask bwEx []) ((16 / 5 : ℚ), (0 : ℚ)) = true) := by
    rw [hMp]
    dsimp only
    rw [hr_165, r0]
    decide
  have hstep0 : scanStep (regionMask bwEx []) ⟨[], false, none⟩ ((0 : ℚ), (0 : ℚ)) =
      ⟨[], true, some ((0 : ℚ), (0 : ℚ))⟩ := by
    rw [scanStep, if_pos hm0]
    rfl
  have hstep1 : scanStep (regionMask bwEx []) ⟨[], true, some ((0 : ℚ), (0 : ℚ))⟩
      ((1 : ℚ), (0 : ℚ)) = ⟨[], true, some ((0 : ℚ), (0 : ℚ))⟩ := by
    rw [scanStep, if_pos hm1]
    rfl
  have hstep2 : scanStep (regionMask bwEx []) ⟨[], true, some ((0 : ℚ), (0 : ℚ))⟩
      ((2 : ℚ), (0 : ℚ)) = ⟨[], true, some ((0 : ℚ), (0 : ℚ))⟩ := by
    rw [scanStep, if_pos hm2]
    rfl
  have hstep3 : scanStep (regionMask bwEx []) ⟨[], true, some ((0 : ℚ), (0 : ℚ))⟩
      ((3 : ℚ), (0 : ℚ)) =
      ⟨[(((0 : ℚ), (0 : ℚ)), ((3 : ℚ), (0 : ℚ)))], false, none⟩ := by
    rw [scanStep, if_neg hm3ne]
    rfl
  have hadd1 : (((0 : ℚ), (0 : ℚ)) + ((1 : ℚ), (0 : ℚ)) : Pt) = ((1 : ℚ), (0 : ℚ)) := by
    rw [Prod.mk_add_mk]
    norm_num
  have hadd2 : (((1 : ℚ), (0 : ℚ)) + ((1 : ℚ), (0 : ℚ)) : Pt) = ((2 : ℚ), (0 : ℚ)) := by
    rw [Prod.mk_add_mk]
    norm_num
  have hadd3 : (((2 : ℚ), (0 : ℚ)) + ((1 : ℚ), (0 : ℚ)) : Pt) = ((3 : ℚ), (0 : ℚ)) := by
    rw [Prod.mk_add_mk]
    norm_num
  have hsa : scanAux (regionMask bwEx []) ((1 : ℚ), (0 : ℚ)) 4 ((0 : ℚ), (0 : ℚ))
      ⟨[], false, none⟩ =
      ⟨[(((0 : ℚ), (0 : ℚ)), ((3 : ℚ), (0 : ℚ)))], false, none⟩ := by
    rw [scanAux, hstep0, hadd1]
    rw [scanAux, hstep1, hadd2]
    rw [scanAux, hstep2, hadd3]
    rw [scanAux, hstep3]
    rw [scanAux]
  have hscan : scanSegs (regionMask bwEx []) ((0 : ℚ), (0 : ℚ)) ((1 : ℚ), (0 : ℚ)) 4 =
      [(((0 : ℚ), (0 : ℚ)), ((3 : ℚ), (0 : ℚ)))] := by
    rw [scanSegs, hsa]
    rfl
  have hnegd : (-((1 / 5 : ℚ), (0 : ℚ)) : Pt) = ((-(1 / 5) : ℚ), (0 : ℚ)) := by
    rw [Prod.neg_mk, neg_zero]
  have he0 : (((0 : ℚ), (0 : ℚ)) + ((-(1 / 5) : ℚ), (0 : ℚ)) : Pt) =
      ((-(1 / 5) : ℚ), (0 : ℚ)) := by
    rw [Prod.mk_add_mk]
    norm_num
  have he1 : (((-(1 / 5) : ℚ), (0 : ℚ)) + ((-(1 / 5) : ℚ), (0 : ℚ)) : Pt) =
      ((-(2 / 5) : ℚ), (0 : ℚ)) := by
    rw [Prod.mk_add_mk]
    norm_num
  have he2 : (((-(2 / 5) : ℚ), (0 : ℚ)) + ((-(1 / 5) : ℚ), (0 : ℚ)) : Pt) =
      ((-(3 / 5) : ℚ), (0 : ℚ)) := by
    rw [Prod.mk_add_mk]
    norm_num
  have he3 : (((3 : ℚ), (0 : ℚ)) + ((1 / 5 : ℚ), (0 : ℚ)) : Pt) =
      ((16 / 5 : ℚ), (0 : ℚ)) := by
    rw [Prod.mk_add_mk]
    norm_num
  have hesB : extendB (regionMask bwEx []) (-((1 / 5 : ℚ), (0 : ℚ))) 1000
      ((0 : ℚ), (0 : ℚ)) ((0 : ℚ), (0 : ℚ)) = ((-(2 / 5) : ℚ), (0 : ℚ)) := by
    rw [hnegd]
    rw [extendB, he0, if_pos hmn15]
    rw [extendB, he1, if_pos hmn25]
    rw [extendB, he2, if_neg hmn35ne]
  have heeB : extendB (regionMask bwEx []) ((1 / 5 : ℚ), (0 : ℚ)) 1000
      ((3 : ℚ), (0 : ℚ)) ((3 : ℚ), (0 : ℚ)) = ((3 : ℚ), (0 : ℚ)) := by
    rw [extendB, he3, if_neg hm165ne]
  refine ⟨?_, ?_⟩
  · have h := (hatch_containment).1 bwEx [] ((0 : ℚ), (0 : ℚ)) ((1 : ℚ), (0 : ℚ))
      ((1 / 5 : ℚ), (0 : ℚ)) 4 1000 (0, 0) (3, 0) ?_
    · exact ⟨h.1, h.2⟩
    · rw [generalHatchSegs, hatchSegsOut, hscan]
      apply List.mem_filterMap.mpr
      refine ⟨(((0 : ℚ), (0 : ℚ)), ((3 : ℚ), (0 : ℚ))), List.mem_singleton.mpr rfl, ?_⟩
      dsimp only
      rw [hesB, heeB]
      rw [if_pos (by rw [dist2]; norm_num)]
      rw [rndPt, rndPt]
      dsimp only
      rw [hr_n25, r0, r3]
  · have h := (hatch_containment).2.1 bEx 30 6 0 6 ((0, 0), (29, 0)) ?_
    · exact ⟨h.1, h.2⟩
    · rw [thin_horizontal]
      apply List.mem_filterMap.mpr
      refine ⟨0, ?_, ?_⟩
      · rw [thin_rows_0_6]
        decide
      · rw [if_pos (by decide : (0 : ℤ) ≤ 0 ∧ (0 : ℤ) < ((6 : ℕ) : ℤ))]
        decide

end B2G
